import Mathlib

/-!
Verification of the route/VRF reconciler and RIB/FIB engine
(pkg/rib, pkg/rib/tables, pkg/routeexporter, pkg/k8s/watchers).

The Go source is shallowly embedded: each Lean definition mirrors one
source function or type.  Machine integers are modelled as `Nat` (the
source only ever uses non-negative values in the modelled fragment);
byte strings (`index.Key`) are modelled as `List Nat`; Go maps used as
string sets are modelled as lists with insert-if-absent semantics.
External collaborators that are not part of the repository (the Linux
netlink layer) are modelled from their boundary contract in the spec
(see the doc comments starting with `Modelled from the spec:`).
-/

namespace Rib

/-! ## pkg/rib/tables: Prefix, NextHop, Protocol, Route -/

/-- `index.Key` is a byte string. -/
abbrev Key := List Nat

/-- Kind bytes for prefixes (`prefixKindUnspec = 0`, IPv4 = 1, IPv6 = 2). -/
def prefixKindIPv4 : Nat := 1
def prefixKindIPv6 : Nat := 2

/-- The four bytes of a 32-bit IPv4 address value (`netip.Addr.As4`),
most significant first. -/
def as4 (a : Nat) : List Nat :=
  [a / 2 ^ 24 % 256, a / 2 ^ 16 % 256, a / 2 ^ 8 % 256, a % 256]

/-- The sixteen bytes of a 128-bit IPv6 address value (`netip.Addr.As16`),
most significant first. -/
def as16 (a : Nat) : List Nat :=
  (List.range 16).map (fun i => a / 2 ^ (8 * (15 - i)) % 256)

/-- `IPv4Prefix` wraps a `netip.Prefix`: a stored (not necessarily
masked) address and a prefix length.  `netip` does not canonicalize on
construction; `Masked()` must be called explicitly and the source never
calls it. -/
structure IPv4Prefix where
  addr : Nat
  bits : Nat
deriving DecidableEq, Repr

/-- `IPv6Prefix` wraps a `netip.Prefix` holding an IPv6 address. -/
structure IPv6Prefix where
  addr : Nat
  bits : Nat
deriving DecidableEq, Repr

/-- The `Prefix` interface: closed over the two concrete implementations
present in the source. -/
inductive RPrefix where
  | v4 (p : IPv4Prefix)
  | v6 (p : IPv6Prefix)
deriving DecidableEq, Repr

/-- `IPv4Prefix.Key`: kind byte followed by `Addr().As4()`. -/
def IPv4Prefix.key (p : IPv4Prefix) : Key := prefixKindIPv4 :: as4 p.addr

/-- `IPv6Prefix.Key`: kind byte followed by `Addr().As16()`. -/
def IPv6Prefix.key (p : IPv6Prefix) : Key := prefixKindIPv6 :: as16 p.addr

/-- Dynamic dispatch of `Prefix.Key()`. -/
def RPrefix.key : RPrefix → Key
  | .v4 p => p.key
  | .v6 p => p.key

/-- `netip.Prefix.Masked()` for IPv4: zero the low `32 - bits` bits. -/
def masked4 (addr bits : Nat) : Nat :=
  addr / 2 ^ (32 - bits) * 2 ^ (32 - bits)

/-- `netip.Prefix.Masked()` for IPv6: zero the low `128 - bits` bits. -/
def masked16 (addr bits : Nat) : Nat :=
  addr / 2 ^ (128 - bits) * 2 ^ (128 - bits)

/-- Two `Prefix` values of the same address family whose keys carry the
same address bytes while the prefix lengths differ. -/
def sameAddrDiffLen : RPrefix → RPrefix → Prop
  | .v4 a, .v4 b => as4 a.addr = as4 b.addr ∧ a.bits ≠ b.bits
  | .v6 a, .v6 b => as16 a.addr = as16 b.addr ∧ a.bits ≠ b.bits
  | _, _ => False

/-- The next-hop variants (`NextHopInterface`, `NextHopIPv4`,
`NextHopIPv6`) with their kind bytes 1, 2, 3. -/
inductive NextHop where
  | iface (name : String)
  | ipv4 (addr : Nat)
  | ipv6 (addr : Nat)
deriving DecidableEq, Repr

/-- `NextHop.Kind()` as a numeric ID. -/
def NextHop.kind : NextHop → Nat
  | .iface _ => 1
  | .ipv4 _ => 2
  | .ipv6 _ => 3

/-- The protocol variants (`ProtocolKubernetes`, `ProtocolEBGP`,
`ProtocolIBGP`). -/
inductive Protocol where
  | kubernetes
  | ebgp
  | ibgp
deriving DecidableEq, Repr

/-- `Protocol.AdminDistance()`: 1 for Kubernetes, 20 for eBGP, 200 for
iBGP (`adminDistanceKubernetes` etc.). -/
def Protocol.adminDistance : Protocol → Nat
  | .kubernetes => 1
  | .ebgp => 20
  | .ibgp => 200

/-- `Protocol.Key()`: kind bytes 1, 2, 3 (`protocolKindKubernetes` etc.). -/
def Protocol.key : Protocol → Key
  | .kubernetes => [1]
  | .ebgp => [2]
  | .ibgp => [3]

/-- A RIB/FIB row (`tables.Route`). -/
structure Route where
  pfx : RPrefix
  nextHop : NextHop
  protocol : Protocol
  owner : String
deriving DecidableEq, Repr

/-- `index.String`: the bytes of a Go string. -/
def stringKey (s : String) : Key := s.toList.map Char.toNat

/-- `RouteID.Key()`: the prefix key with the owner bytes appended.  This
is the primary key of the RIB (`RIBIDIndex`). -/
def Route.routeIDKey (r : Route) : Key := r.pfx.key ++ stringKey r.owner

/-! ## RIB and FIB tables (statedb tables over `Route`)

A statedb table with a unique primary index is modelled as a list of
rows; `Insert` upserts by primary key (the new row replaces any row
with the same key), `Delete` removes by primary key.  The RIB's primary
key is `RouteID.Key()` (prefix key + owner bytes, `RIBIDIndex`); the
FIB's primary key is `Prefix.Key()` alone (`FIBIDIndex`). -/

abbrev RIB := List Route
abbrev FIB := List Route

/-- RIB `Insert`: upsert by `RouteID.Key()`. -/
def ribInsert (rib : RIB) (rt : Route) : RIB :=
  rt :: rib.filter (fun r => ¬ r.routeIDKey = rt.routeIDKey)

/-- RIB `Delete`: remove by `RouteID.Key()`. -/
def ribDelete (rib : RIB) (rt : Route) : RIB :=
  rib.filter (fun r => ¬ r.routeIDKey = rt.routeIDKey)

/-- `RIBPrefixIndex.Query(p)`: all RIB rows whose prefix key equals the
queried key (the index stores `Prefix.Key()`). -/
def ribRoutesFor (rib : RIB) (k : Key) : List Route :=
  rib.filter (fun r => r.pfx.key = k)

/-- FIB `Insert`: upsert by `Prefix.Key()` (`FIBIDIndex` is unique). -/
def fibInsert (fib : FIB) (rt : Route) : FIB :=
  rt :: fib.filter (fun r => ¬ r.pfx.key = rt.pfx.key)

/-- FIB `Delete`: remove by `Prefix.Key()`. -/
def fibDelete (fib : FIB) (rt : Route) : FIB :=
  fib.filter (fun r => ¬ r.pfx.key = rt.pfx.key)

/-- `FIBIDIndex.Query(p)`: the FIB rows with the given prefix key. -/
def fibAt (fib : FIB) (k : Key) : List Route :=
  fib.filter (fun r => r.pfx.key = k)

/-- The RIB rows with the given `RouteID.Key()` (primary-index lookup). -/
def ribAtID (rib : RIB) (k : Key) : List Route :=
  rib.filter (fun r => r.routeIDKey = k)

/-! ## pkg/rib/processor.go: best-path selection -/

/-- The comparison loop of `slices.MinFunc` as called by `selectBest`:
starting from the first element, replace the current minimum whenever a
later element has a strictly smaller `Protocol.AdminDistance()`. -/
def minByDistance (x : Route) (xs : List Route) : Route :=
  xs.foldl
    (fun best r =>
      if r.protocol.adminDistance < best.protocol.adminDistance then r else best)
    x

/-- `processor.selectBest`: query the RIB prefix index for `rt.Prefix`
on a fresh snapshot; if no route remains return `none` (`false`),
otherwise the route with minimal admin distance. -/
def selectBest (rib : RIB) (rt : Route) : Option Route :=
  match ribRoutesFor rib rt.pfx.key with
  | [] => none
  | x :: xs => some (minByDistance x xs)

/-- The body of the delete-tracker callback in `runBestPathSelection`:
on a changed row `rt`, either upsert the new best path into the FIB, or
— when no RIB route for the prefix remains — delete the FIB entry at
`rt`'s (prefix) primary key. -/
def processRoute (rib : RIB) (fib : FIB) (rt : Route) : FIB :=
  match selectBest rib rt with
  | some best => fibInsert fib best
  | none => fibDelete fib rt

/-- One pass of `dt.Iterate`: process every pending changed row in
order against the (quiescent) RIB. -/
def processChanges (rib : RIB) (fib : FIB) (changes : List Route) : FIB :=
  changes.foldl (processRoute rib) fib

/-- The FIB is correct at prefix key `k` w.r.t. the RIB: if the RIB has
no route with that prefix key, the FIB has no entry there; otherwise
the FIB holds exactly one entry, which is a RIB route for `k` with
minimal admin distance. -/
def fibCorrectAt (rib : RIB) (fib : FIB) (k : Key) : Prop :=
  (ribRoutesFor rib k = [] ∧ fibAt fib k = []) ∨
  (∃ best, fibAt fib k = [best] ∧ best ∈ ribRoutesFor rib k ∧
    ∀ r ∈ ribRoutesFor rib k,
      best.protocol.adminDistance ≤ r.protocol.adminDistance)

/-! ## statedb write transactions and watch channels

`Modelled from the spec:` the statedb store itself
(`pkg/statedb`) is not part of the given sources — only its tables,
indices and tests are.  Per §5 of the spec, a committed write
transaction applies a batch of inserts and deletes atomically, and
"every read query returns a watch handle that is signaled when a
subsequent committed write could change the query's answer"; the watch
of a `Get(OwnerIndex, key)` query is attached to the queried key of the
`Owner` index, and a committed write signals the watches attached to
the index keys of the rows it touched. -/

/-- A committed RIB write transaction: the batch of rows it inserted
and deleted. -/
structure WriteTx where
  inserts : List Route
  deletes : List Route

/-- Applying a committed transaction: all inserts (upsert by primary
key), then all deletes. -/
def applyTx (rib : RIB) (tx : WriteTx) : RIB :=
  tx.deletes.foldl ribDelete (tx.inserts.foldl ribInsert rib)

/-- `RIBOwnerIndex.Query(o)`: the rows whose `Owner` equals `o` (the
owner index stores `index.String(rt.Owner)`). -/
def ownerQuery (rib : RIB) (o : String) : List Route :=
  rib.filter (fun r => r.owner = o)

/-- `Modelled from the spec:` the watch handle returned by a
`Get(OwnerIndex, o)` query is signaled by a committed write iff the
write touched a row whose `Owner`-index key equals `o`. -/
def ownerWatchSignaled (tx : WriteTx) (o : String) : Bool :=
  (tx.inserts ++ tx.deletes).any (fun r => r.owner == o)

end Rib

namespace Exporter

/-! ## pkg/routeexporter/prefix_set.go: the prefix-set algebra

`prefixSet` wraps a Go `map[string]interface{}` used as a set of
textual CIDRs.  The map is modelled as a duplicate-free list of keys;
map iteration visits each key once (in the model: in list order — all
properties proved below are order-independent memberships). -/

/-- `prefixSet`. -/
structure PrefixSet where
  prefixes : List String
deriving DecidableEq, Repr

/-- `newPrefixSet()`. -/
def newPrefixSet : PrefixSet := ⟨[]⟩

/-- `prefixSet.exists`. -/
def PrefixSet.has (ps : PrefixSet) (p : String) : Bool :=
  ps.prefixes.contains p

/-- `prefixSet.add`: map insert (no-op on the key set when present). -/
def PrefixSet.add (ps : PrefixSet) (p : String) : PrefixSet :=
  if ps.prefixes.contains p then ps else ⟨ps.prefixes ++ [p]⟩

/-- `prefixSet.del`: map delete. -/
def PrefixSet.del (ps : PrefixSet) (p : String) : PrefixSet :=
  ⟨ps.prefixes.filter (fun q => ¬ q = p)⟩

/-- `prefixSet.dup`: fresh set, `add` every element of the source. -/
def PrefixSet.dup (src : PrefixSet) : PrefixSet :=
  src.prefixes.foldl PrefixSet.add newPrefixSet

/-- The loop body of `prefixSet.distance`: a prefix of `current` is
either dropped from the accumulating add set (when desired) or
recorded in the accumulating delete set. -/
def distStep (desired : PrefixSet) (acc : PrefixSet × PrefixSet) (p : String) :
    PrefixSet × PrefixSet :=
  if desired.has p then (acc.1.del p, acc.2) else (acc.1, acc.2.add p)

/-- `prefixSet.distance`: `addSet := desired.dup()`; fresh `deleteSet`;
for each prefix of `current`, either drop it from `addSet` (if desired)
or record it in `deleteSet`. -/
def PrefixSet.distance (desired current : PrefixSet) : PrefixSet × PrefixSet :=
  current.prefixes.foldl (distStep desired) (desired.dup, newPrefixSet)

/-! ## The netlink boundary

`Modelled from the spec:` the Go `net`/`netlink` libraries and the
kernel are external collaborators (§6 of the spec): "route `replace` is
upsert; route delete on missing returns a distinguishable errno that
the adapter swallows", and the adapter's tuples are
`{dst, table, protocol, oif}` keyed by `(table, protocol, dst)`.
The textual side (`net.ParseCIDR` / `IPNet.String`) is modelled for
IPv4 dotted-quad CIDRs: `ParseCIDR` masks the address
(returns `&IPNet{IP: ip.Mask(mask), ...}`), `String` renders the
masked network address and the prefix length. -/

/-- Linux `AF_INET`. -/
def AF_INET : Nat := 2

/-- Linux `EEXIST` (the errno the source's comment reads as "route
doesn't exist" on delete). -/
def EEXIST : Nat := 17

/-- Linux `unix.RTPROT_STATIC`. -/
def RTPROT_STATIC : Nat := 4

/-- `net.IPNet` for IPv4: a (masked) 32-bit network address and a mask
length. -/
structure IPNet where
  addr : Nat
  maskLen : Nat
deriving DecidableEq, Repr

/-- `net.IPNet.String()` for IPv4: dotted quad of the stored (already
masked) address, a slash, and the mask length. -/
def renderIPNet (n : IPNet) : String :=
  toString (n.addr / 2 ^ 24 % 256) ++ "." ++ toString (n.addr / 2 ^ 16 % 256) ++ "." ++
    toString (n.addr / 2 ^ 8 % 256) ++ "." ++ toString (n.addr % 256) ++ "/" ++
    toString n.maskLen

/-- Splitting a character sequence at every occurrence of a separator
(the text-level mechanics of `ParseCIDR`). -/
def splitOnCharList (sep : Char) : List Char → List (List Char)
  | [] => [[]]
  | c :: cs =>
    match splitOnCharList sep cs with
    | [] => if c = sep then [[], []] else [[c]]
    | y :: ys => if c = sep then [] :: y :: ys else (c :: y) :: ys

/-- The value of a decimal digit character, if it is one. -/
def digitVal (c : Char) : Option Nat :=
  if 48 ≤ c.toNat ∧ c.toNat ≤ 57 then some (c.toNat - 48) else none

/-- A decimal number in canonical form (as `ParseCIDR` accepts: digits
only, no leading zeros). -/
def parseDecimal (cs : List Char) : Option Nat :=
  match cs with
  | [] => none
  | c :: rest =>
    if c = '0' ∧ rest ≠ [] then none
    else
      cs.foldl
        (fun acc? ch =>
          match acc?, digitVal ch with
          | some acc, some d => some (acc * 10 + d)
          | _, _ => none)
        (some 0)

/-- `net.ParseCIDR` for IPv4 (`a.b.c.d/len`): each octet below 256,
length at most 32; the returned network address is masked
(`&IPNet{IP: ip.Mask(mask), Mask: mask}`). -/
def parseCIDR (s : String) : Option IPNet :=
  match splitOnCharList '/' s.toList with
  | [ip, lenCs] =>
    match parseDecimal lenCs with
    | none => none
    | some len =>
      if len ≤ 32 then
        match splitOnCharList '.' ip with
        | [a, b, c, d] =>
          match parseDecimal a, parseDecimal b, parseDecimal c, parseDecimal d with
          | some x, some y, some z, some w =>
            if x < 256 ∧ y < 256 ∧ z < 256 ∧ w < 256 then
              some ⟨Rib.masked4 (x * 2 ^ 24 + y * 2 ^ 16 + z * 2 ^ 8 + w) len, len⟩
            else none
          | _, _, _, _ => none
        | _ => none
      else none
  | _ => none

/-- A kernel route entry with the attributes the source reads/writes:
`{LinkIndex, Dst, Table, Protocol}` plus the address family. -/
structure KRoute where
  linkIndex : Nat
  dst : Option IPNet
  table : Nat
  protocol : Nat
  family : Nat
deriving DecidableEq, Repr

/-- The kernel routing state. -/
abbrev Kernel := List KRoute

/-- Two routes carry the same kernel identity: `(table, protocol, dst)`
(the adapter's tuple per §4.2 of the spec). -/
def kmatch (q r : KRoute) : Prop :=
  q.table = r.table ∧ q.protocol = r.protocol ∧ q.dst = r.dst

instance : DecidablePred fun p : KRoute × KRoute => kmatch p.1 p.2 := by
  intro p; unfold kmatch; infer_instance

instance (q r : KRoute) : Decidable (kmatch q r) := by
  unfold kmatch; infer_instance

/-- `netlink.RouteListFiltered(family, {Table, Protocol},
RT_FILTER_TABLE | RT_FILTER_PROTOCOL)`. -/
def routeListFiltered (st : Kernel) (af tableID protocolID : Nat) : List KRoute :=
  st.filter (fun r => r.family = af ∧ r.table = tableID ∧ r.protocol = protocolID)

/-- `netlink.RouteReplace`: replace-or-insert by `(table, protocol,
dst)`. -/
def routeReplace (st : Kernel) (r : KRoute) : Kernel :=
  r :: st.filter (fun q => ¬ kmatch q r)

/-- `netlink.RouteDel`: delete the matching `(table, protocol, dst)`
tuple; when nothing matches, the kernel reports that the route does not
exist via an errno (the source reads it as `EEXIST`). -/
def routeDel (st : Kernel) (r : KRoute) : Kernel × Option Nat :=
  if st.any (fun q => kmatch q r) then
    (st.filter (fun q => ¬ kmatch q r), none)
  else
    (st, some EEXIST)

/-- A kernel link with the attributes the source reads: name, the
VRF's bound table, oper state, interface index. -/
structure Link where
  name : String
  isVrf : Bool
  table : Nat
  operUp : Bool
  index : Nat
deriving DecidableEq, Repr

/-- The kernel link table plus the next interface index to allocate. -/
structure LinkState where
  links : List Link
  nextIndex : Nat
deriving DecidableEq, Repr

/-- `netlink.LinkByName`. -/
def linkByName (ls : LinkState) (n : String) : Option Link :=
  ls.links.find? (fun l => l.name == n)

/-- `netlink.LinkAdd(&netlink.Vrf{Name: n, Table: tableID})`: the new
device starts administratively down. -/
def linkAddVrf (ls : LinkState) (n : String) (tableID : Nat) : LinkState :=
  { links := ls.links ++ [⟨n, true, tableID, false, ls.nextIndex⟩],
    nextIndex := ls.nextIndex + 1 }

/-- `netlink.LinkSetUp`. -/
def linkSetUp (ls : LinkState) (n : String) : LinkState :=
  { ls with
    links := ls.links.map (fun l => if l.name == n then { l with operUp := true } else l) }

/-! ## pkg/routeexporter/exporter.go and prefix_set.go: the reconcilers -/

/-- `getOrCreateVrf` (identical bodies also under the names
`reconcileVrf` in prefix_set.go and `ensureVrf` in the watcher): look
the link up by name; if absent, create a VRF bound to `tableID` and
look it up again; finally bring the device up if it is not `OperUp`.
The existing link's bound table is *not* compared against `tableID`.
`none` in the second component is the error return. -/
def getOrCreateVrf (ls : LinkState) (vrfName : String) (tableID : Nat) :
    LinkState × Option Link :=
  match linkByName ls vrfName with
  | some vrf =>
    if vrf.operUp then (ls, some vrf) else (linkSetUp ls vrfName, some vrf)
  | none =>
    let ls' := linkAddVrf ls vrfName tableID
    match linkByName ls' vrfName with
    | some vrf =>
      if vrf.operUp then (ls', some vrf) else (linkSetUp ls' vrfName, some vrf)
    | none => (ls', none)

/-- The add loop of `reconcileRoutes`: parse each prefix of the add
set, `RouteReplace` the tuple; a parse failure returns an error
(`true`).  Also counts issued kernel route writes. -/
def applyAdds (vrfIfindex tableID protocolID : Nat) :
    List String → Kernel → Nat → Kernel × Nat × Bool
  | [], st, w => (st, w, false)
  | p :: ps, st, w =>
    match parseCIDR p with
    | none => (st, w, true)
    | some dst =>
      applyAdds vrfIfindex tableID protocolID ps
        (routeReplace st ⟨vrfIfindex, some dst, tableID, protocolID, AF_INET⟩) (w + 1)

/-- The delete loop of `reconcileRoutes`: parse each prefix of the
delete set, `RouteDel` the tuple; a parse failure *or any* `RouteDel`
error aborts with an error (this loop, unlike `deleteKernelRoutes`,
does not swallow the missing-route errno). -/
def applyDels (vrfIfindex tableID protocolID : Nat) :
    List String → Kernel → Nat → Kernel × Nat × Bool
  | [], st, w => (st, w, false)
  | p :: ps, st, w =>
    match parseCIDR p with
    | none => (st, w, true)
    | some dst =>
      match routeDel st ⟨vrfIfindex, some dst, tableID, protocolID, AF_INET⟩ with
      | (st', some _) => (st', w + 1, true)
      | (st', none) => applyDels vrfIfindex tableID protocolID ps st' (w + 1)

/-- `reconcileRoutes`: the add loop, then the delete loop. -/
def reconcileRoutes (vrfIfindex tableID protocolID : Nat)
    (addSet deleteSet : PrefixSet) (st : Kernel) : Kernel × Nat × Bool :=
  match applyAdds vrfIfindex tableID protocolID addSet.prefixes st 0 with
  | (st₁, w₁, true) => (st₁, w₁, true)
  | (st₁, w₁, false) => applyDels vrfIfindex tableID protocolID deleteSet.prefixes st₁ w₁

/-- Result of one reconcile pass: final link and kernel route state,
the number of kernel route writes issued, and whether the pass errored
(the handler stores such an error in the exporter's `lastError`). -/
structure SyncResult where
  links : LinkState
  kernel : Kernel
  writes : Nat
  errored : Bool
deriving DecidableEq, Repr

/-- `reconcileKernelRoutes`: ensure the VRF, then reconcile routes
against its interface index. -/
def reconcileKernelRoutes (vrfName : String) (tableID protocolID : Nat)
    (addSet deleteSet : PrefixSet) (ls : LinkState) (st : Kernel) : SyncResult :=
  match getOrCreateVrf ls vrfName tableID with
  | (ls', none) => ⟨ls', st, 0, true⟩
  | (ls', some vrf) =>
    match reconcileRoutes vrf.index tableID protocolID addSet deleteSet st with
    | (st', w, e) => ⟨ls', st', w, e⟩

/-- The inner loop body of `getKernelRoutes`: collect the `String`
rendering of a non-nil route destination (`route.Dst.String()`); a
route lacking a destination is skipped. -/
def collectDst (ret2 : PrefixSet) (r : KRoute) : PrefixSet :=
  match r.dst with
  | none => ret2
  | some d => ret2.add (renderIPNet d)

/-- The outer loop body of `getKernelRoutes`: one `RouteListFiltered`
call for one address family. -/
def listFamilyStep (st : Kernel) (tableID protocolID : Nat)
    (ret : PrefixSet) (af : Nat) : PrefixSet :=
  (routeListFiltered st af tableID protocolID).foldl collectDst ret

/-- `getKernelRoutes`: for each requested address family, list the
kernel routes filtered by `{table, protocol}` and collect the `String`
rendering of every non-nil destination. -/
def getKernelRoutes (st : Kernel) (tableID protocolID : Nat) (afs : List Nat) : PrefixSet :=
  afs.foldl (listFamilyStep st tableID protocolID) newPrefixSet

/-- The body of the `runPodCIDRSyncer` event handler, for a desired
prefix set computed from the node object: list the current kernel
routes of the partition, diff, and reconcile. -/
def podCIDRPass (vrfName : String) (tableID protocolID : Nat) (afs : List Nat)
    (desired : PrefixSet) (ls : LinkState) (st : Kernel) : SyncResult :=
  let current := getKernelRoutes st tableID protocolID afs
  match desired.distance current with
  | (addSet, deleteSet) =>
    reconcileKernelRoutes vrfName tableID protocolID addSet deleteSet ls st

/-- `getPodCIDRsFromK8sNode`: prefer the plural `PodCIDRs` list, fall
back to the singular `PodCIDR`. -/
def getPodCIDRsFromK8sNode (podCIDR : String) (podCIDRs : List String) : PrefixSet :=
  if podCIDRs.length ≠ 0 then podCIDRs.foldl PrefixSet.add newPrefixSet
  else newPrefixSet.add podCIDR

/-- The delete loop of `deleteKernelRoutes` (exporter.go): `RouteDel`
each already-parsed prefix; an `EEXIST` errno ("route doesn't exist")
is swallowed and the loop continues; any other error aborts. -/
def deleteKernelRoutesLoop (vrfIfindex tableID protocolID : Nat) :
    List IPNet → Kernel → Kernel × Bool
  | [], st => (st, false)
  | p :: ps, st =>
    match routeDel st ⟨vrfIfindex, some p, tableID, protocolID, AF_INET⟩ with
    | (st', some errno) =>
      if errno = EEXIST then deleteKernelRoutesLoop vrfIfindex tableID protocolID ps st'
      else (st', true)
    | (st', none) => deleteKernelRoutesLoop vrfIfindex tableID protocolID ps st'

/-- `deleteKernelRoutes` (exporter.go): ensure the VRF, then run the
delete loop over the given prefixes. -/
def deleteKernelRoutes (vrfName : String) (tableID protocolID : Nat)
    (prefixes : List IPNet) (ls : LinkState) (st : Kernel) :
    LinkState × Kernel × Bool :=
  match getOrCreateVrf ls vrfName tableID with
  | (ls', none) => (ls', st, true)
  | (ls', some vrf) =>
    match deleteKernelRoutesLoop vrf.index tableID protocolID prefixes st with
    | (st', e) => (ls', st', e)

/-! ## NewRouteExporter: configuration validation (both source variants) -/

/-- `validateProtocolID`: rejects 0 and anything below
`RTPROT_STATIC`.  Returns the error, `none` on success.  (Protocol IDs
are modelled as `Nat`; the kernel protocol field is unsigned.) -/
def validateProtocolID (protocolID : Nat) : Option String :=
  if protocolID = 0 then some "no protocol ID specified"
  else if protocolID < RTPROT_STATIC then
    some "protocol IDs below RTPROT_STATIC are reserved for kernel internal use"
  else none

/-- `RouteExporterConfig` (first exporter.go variant): one shared VRF
name/table, per-concern protocol IDs. -/
structure RouteExporterConfig where
  vrfName : String
  tableID : Nat
  exportPodCIDR : Bool
  podCIDRProtocolID : Nat
  exportLBIP : Bool
  lbipProtocolID : Nat
deriving DecidableEq, Repr

/-- `NewRouteExporter` over `RouteExporterConfig`: returns the
validation error, `none` on success.  NB: faithfully to the source,
the `ExportLBIP` branch validates `rec.PodCIDRProtocolID`. -/
def newRouteExporter (rec : RouteExporterConfig) : Option String :=
  if rec.vrfName = "" then some "no VRF name specified"
  else if rec.tableID = 0 then some "no table ID specified"
  else
    match (if rec.exportPodCIDR then validateProtocolID rec.podCIDRProtocolID else none) with
    | some e => some ("invalid protocol ID specified for PodCIDR: " ++ e)
    | none =>
      match (if rec.exportLBIP then validateProtocolID rec.podCIDRProtocolID else none) with
      | some e => some ("invalid protocol ID specified for LB IP: " ++ e)
      | none => none

/-- `RouteExporterOptions` (second exporter.go variant): per-concern
prefixed fields. -/
structure RouteExporterOptions where
  exportPodCIDR : Bool
  podCIDRVrfName : String
  podCIDRTableID : Nat
  podCIDRProtocolID : Nat
  exportLBIP : Bool
  lbipVrfName : String
  lbipTableID : Nat
  lbipProtocolID : Nat
deriving DecidableEq, Repr

/-- `NewRouteExporter` over `RouteExporterOptions`: each enabled
exporter's name, table ID and (its own) protocol ID are validated. -/
def newRouteExporterOpts (o : RouteExporterOptions) : Option String :=
  match
    (if o.exportPodCIDR then
      if o.podCIDRVrfName = "" then some "no VRF name specified for PodCIDR"
      else if o.podCIDRTableID = 0 then some "no table ID specified for PodCIDR"
      else
        match validateProtocolID o.podCIDRProtocolID with
        | some e => some ("invalid protocol ID specified for PodCIDR: " ++ e)
        | none => none
    else none)
  with
  | some e => some e
  | none =>
    if o.exportLBIP then
      if o.lbipVrfName = "" then some "no VRF name specified for LBIP"
      else if o.lbipTableID = 0 then some "no table ID specified for LBIP"
      else
        match validateProtocolID o.lbipProtocolID with
        | some e => some ("invalid protocol ID specified for LBIP: " ++ e)
        | none => none
    else none

/-! ## pkg/k8s/watchers: the VRF+rule reconciler's managed set -/

/-- A kernel link as seen by `getVrfs` (name plus whether the link is
a `*netlink.Vrf`). -/
structure NLLink where
  name : String
  isVrf : Bool
deriving DecidableEq, Repr

/-- The daemon options read by `getVrfs`
(`option.Config.EnableRouteExporter`,
`option.Config.RouteExporterLBIPVrfName`,
`option.Config.RouteExporterPodCIDRVrfName`). -/
structure DaemonConfig where
  enableRouteExporter : Bool
  routeExporterLBIPVrfName : String
  routeExporterPodCIDRVrfName : String
deriving DecidableEq, Repr

/-- `getVrfs` (src/unnamed/part_005): every VRF link from `LinkList`,
skipping the route exporter's LB-VIP and pod-CIDR VRF names when the
route exporter is enabled. -/
def getVrfs (cfg : DaemonConfig) (links : List NLLink) : List NLLink :=
  links.filter (fun l =>
    l.isVrf ∧
    ¬ (cfg.enableRouteExporter ∧
       (l.name = cfg.routeExporterLBIPVrfName ∨
        l.name = cfg.routeExporterPodCIDRVrfName)))

/-- `getVrfs` (pkg/k8s/watchers/cilium_vrf.go, the earlier draft):
every VRF link, with no exclusion of the exporter's names. -/
def getVrfsUnfiltered (links : List NLLink) : List NLLink :=
  links.filter (fun l => l.isVrf)

/-- The delete branch of `reconcileVrfs`: every currently managed VRF
name (from `getVrfs`) that is not in the desired set is deleted. -/
def reconcileVrfsDeletions (cfg : DaemonConfig) (links : List NLLink)
    (desiredNames : List String) : List String :=
  ((getVrfs cfg links).map (fun l => l.name)).filter
    (fun n => ¬ desiredNames.contains n)

end Exporter

/-! ## Concrete fixtures (used by witnesses and counterexamples)

The route values mirror `rt0` and its variants from the RIB test
suite (`10.0.0.0/24` via `10.0.0.1`; `167772160 = 10.0.0.0`,
`167772161 = 10.0.0.1`). -/

namespace Fixtures

open Rib Exporter

def rtK8sA : Route := ⟨.v4 ⟨167772160, 24⟩, .ipv4 167772161, .kubernetes, "ownerA"⟩

def rtEBGPB : Route := ⟨.v4 ⟨167772160, 24⟩, .ipv4 167772161, .ebgp, "ownerB"⟩

def rtOtherPrefixA : Route := ⟨.v4 ⟨167772416, 24⟩, .ipv4 167772161, .kubernetes, "ownerA"⟩

def rtLen24 : Route := ⟨.v4 ⟨167772160, 24⟩, .ipv4 167772161, .kubernetes, "ownerA"⟩

def rtLen25 : Route := ⟨.v4 ⟨167772160, 25⟩, .ipv4 167772161, .ebgp, "ownerA"⟩

/-- A config with the LB-VIP exporter enabled and an invalid (zero) LB
protocol ID while the pod-CIDR protocol ID is valid. -/
def cfgLBInvalid : RouteExporterConfig := ⟨"vrf0", 1, false, 4, true, 0⟩

/-- The same exporter intent over the second source variant's options. -/
def optsLBInvalid : RouteExporterOptions := ⟨false, "vrf0", 1, 4, true, "vrf0", 1, 0⟩

def cfgVrfEx : DaemonConfig := ⟨true, "vrf-lb", "vrf-pod"⟩

def linksVrfEx : List NLLink :=
  [⟨"vrf-pod", true⟩, ⟨"vrf-lb", true⟩, ⟨"vrf-blue", true⟩, ⟨"eth0", false⟩]

/-- A link table holding a VRF named `vrf-pod` bound to table 100. -/
def lsMismatch : LinkState := ⟨[⟨"vrf-pod", true, 100, true, 7⟩], 8⟩

end Fixtures

/-! # Theorems -/

namespace Exporter

/-! ## Prefix-set membership lemmas -/

theorem PrefixSet.has_iff (ps : PrefixSet) (p : String) :
    ps.has p = true ↔ p ∈ ps.prefixes := by
  simp [PrefixSet.has]

theorem PrefixSet.mem_add (ps : PrefixSet) (p q : String) :
    q ∈ (ps.add p).prefixes ↔ q ∈ ps.prefixes ∨ q = p := by
  unfold PrefixSet.add
  by_cases h : p ∈ ps.prefixes
  · rw [if_pos (by simpa using h)]
    exact ⟨Or.inl, fun hor => hor.elim id (fun e => e ▸ h)⟩
  · rw [if_neg (by simpa using h)]
    simp [List.mem_append]

theorem PrefixSet.mem_del (ps : PrefixSet) (p q : String) :
    q ∈ (ps.del p).prefixes ↔ q ∈ ps.prefixes ∧ q ≠ p := by
  simp [PrefixSet.del, List.mem_filter]

theorem PrefixSet.mem_foldl_add (l : List String) :
    ∀ (s : PrefixSet) (q : String),
      q ∈ (l.foldl PrefixSet.add s).prefixes ↔ q ∈ s.prefixes ∨ q ∈ l := by
  induction l with
  | nil => simp
  | cons a as ih =>
    intro s q
    rw [List.foldl_cons, ih, PrefixSet.mem_add]
    simp only [List.mem_cons]
    tauto

theorem PrefixSet.mem_dup (ps : PrefixSet) (q : String) :
    q ∈ ps.dup.prefixes ↔ q ∈ ps.prefixes := by
  unfold PrefixSet.dup
  rw [PrefixSet.mem_foldl_add]
  simp [newPrefixSet]

theorem PrefixSet.distance_foldl_spec (desired : PrefixSet) (cs : List String) :
    ∀ (A D : PrefixSet) (q : String),
      (q ∈ (cs.foldl (distStep desired) (A, D)).1.prefixes ↔
        q ∈ A.prefixes ∧ ¬ (q ∈ cs ∧ q ∈ desired.prefixes)) ∧
      (q ∈ (cs.foldl (distStep desired) (A, D)).2.prefixes ↔
        q ∈ D.prefixes ∨ (q ∈ cs ∧ q ∉ desired.prefixes)) := by
  induction cs with
  | nil => simp
  | cons c cs ih =>
    intro A D q
    rw [List.foldl_cons]
    by_cases hc : desired.has c
    · have hcm : c ∈ desired.prefixes := (PrefixSet.has_iff _ _).mp hc
      rw [show distStep desired (A, D) c = (A.del c, D) by simp [distStep, hc]]
      obtain ⟨h1, h2⟩ := ih (A.del c) D q
      refine ⟨?_, ?_⟩
      · rw [h1, PrefixSet.mem_del]
        simp only [List.mem_cons]
        by_cases hqc : q = c
        · subst hqc; simp [hcm]
        · simp [hqc]
      · rw [h2]
        simp only [List.mem_cons]
        by_cases hqc : q = c
        · subst hqc; simp [hcm]
        · simp [hqc]
    · have hcm : c ∉ desired.prefixes := fun h => hc ((PrefixSet.has_iff _ _).mpr h)
      rw [show distStep desired (A, D) c = (A, D.add c) by simp [distStep, hc]]
      obtain ⟨h1, h2⟩ := ih A (D.add c) q
      refine ⟨?_, ?_⟩
      · rw [h1]
        simp only [List.mem_cons]
        by_cases hqc : q = c
        · subst hqc; simp [hcm]
        · simp [hqc]
      · rw [h2, PrefixSet.mem_add]
        simp only [List.mem_cons]
        by_cases hqc : q = c
        · subst hqc; simp [hcm]
        · simp [hqc]

/-- **C5.** `distance(current)` computes exactly the two set
differences: the add set is `desired \ current`, the delete set is
`current \ desired`, as memberships over canonical CIDR strings.  (The
operation is pure by construction in this embedding: it builds its
result from `desired.dup()` and a fresh set and never mutates either
input, mirroring the source, which only calls `del`/`add` on the two
freshly created sets.) -/
theorem distance_is_set_difference (desired current : PrefixSet) (q : String) :
    (q ∈ (desired.distance current).1.prefixes ↔
      q ∈ desired.prefixes ∧ q ∉ current.prefixes) ∧
    (q ∈ (desired.distance current).2.prefixes ↔
      q ∈ current.prefixes ∧ q ∉ desired.prefixes) := by
  unfold PrefixSet.distance
  obtain ⟨h1, h2⟩ := PrefixSet.distance_foldl_spec desired current.prefixes desired.dup newPrefixSet q
  refine ⟨?_, ?_⟩
  · rw [h1, PrefixSet.mem_dup]
    by_cases hd : q ∈ desired.prefixes <;> tauto
  · rw [h2]
    simp [newPrefixSet]

end Exporter

namespace Rib

/-! ## Index-key layout lemmas and claims C9, C10 -/

/-- **C9 counterexample.** For the non-canonical prefix `10.0.0.1/24`
(`netip` stores the address exactly as given), `IPv4Prefix.Key()`
emits the stored address bytes `10.0.0.1`, not the masked network
address `10.0.0.0` the claim demands. -/
theorem ipv4_key_not_masked_counterexample :
    IPv4Prefix.key ⟨167772161, 24⟩ ≠ prefixKindIPv4 :: as4 (masked4 167772161 24) := by
  decide

/-- **C9 (amended).** `Key()` is the family kind byte followed by the
stored address bytes (4 for IPv4, 16 for IPv6); these equal the masked
(canonical) network address exactly when the prefix is canonical
(already masked); and an IPv4 key never equals an IPv6 key. -/
theorem prefix_key_layout (p4 : IPv4Prefix) (p6 : IPv6Prefix) :
    p4.key = prefixKindIPv4 :: as4 p4.addr ∧
    p6.key = prefixKindIPv6 :: as16 p6.addr ∧
    (masked4 p4.addr p4.bits = p4.addr →
      p4.key = prefixKindIPv4 :: as4 (masked4 p4.addr p4.bits)) ∧
    (masked16 p6.addr p6.bits = p6.addr →
      p6.key = prefixKindIPv6 :: as16 (masked16 p6.addr p6.bits)) ∧
    (RPrefix.v4 p4).key ≠ (RPrefix.v6 p6).key := by
  refine ⟨rfl, rfl, fun h => by rw [h]; rfl, fun h => by rw [h]; rfl, ?_⟩
  simp [RPrefix.key, IPv4Prefix.key, IPv6Prefix.key, prefixKindIPv4, prefixKindIPv6]

/-- Witness for the amended C9 at the canonical prefix `10.0.0.0/24`
(and an arbitrary IPv6 prefix). -/
theorem prefix_key_layout_witness :
    masked4 167772160 24 = 167772160 ∧
    IPv4Prefix.key ⟨167772160, 24⟩ = prefixKindIPv4 :: as4 (masked4 167772160 24) :=
  ⟨by decide, (prefix_key_layout ⟨167772160, 24⟩ ⟨1, 64⟩).2.2.1 (by decide)⟩

theorem fibAt_insert_self (fib : FIB) (rt : Route) :
    fibAt (fibInsert fib rt) rt.pfx.key = [rt] := by
  unfold fibAt fibInsert
  rw [List.filter_cons_of_pos (by simp)]
  rw [List.filter_filter]
  rw [List.filter_eq_nil_iff.mpr]
  intro a ha
  simp

theorem ribAtID_insert_self (rib : RIB) (rt : Route) :
    ribAtID (ribInsert rib rt) rt.routeIDKey = [rt] := by
  unfold ribAtID ribInsert
  rw [List.filter_cons_of_pos (by simp)]
  rw [List.filter_filter]
  rw [List.filter_eq_nil_iff.mpr]
  intro a ha
  simp

theorem not_mem_ribInsert_of_same_key (rib : RIB) (rt r : Route)
    (hk : r.routeIDKey = rt.routeIDKey) (hne : r ≠ rt) :
    r ∉ ribInsert rib rt := by
  intro hmem
  unfold ribInsert at hmem
  rcases List.mem_cons.mp hmem with h | h
  · exact hne h
  · rw [List.mem_filter] at h
    have hno : ¬ r.routeIDKey = rt.routeIDKey := by simpa using h.2
    exact hno hk

theorem not_mem_fibInsert_of_same_key (fib : FIB) (rt r : Route)
    (hk : r.pfx.key = rt.pfx.key) (hne : r ≠ rt) :
    r ∉ fibInsert fib rt := by
  intro hmem
  unfold fibInsert at hmem
  rcases List.mem_cons.mp hmem with h | h
  · exact hne h
  · rw [List.mem_filter] at h
    have hno : ¬ r.pfx.key = rt.pfx.key := by simpa using h.2
    exact hno hk

/-- **C10.** Because the prefix index key omits the prefix length, two
routes whose prefixes share family and address bytes but differ in
length, under the same owner, collide: their `RouteID` keys are equal,
inserting both into the RIB leaves only the later-inserted row at that
primary key (the earlier row is gone), and the two prefixes share a
single FIB primary-key slot. -/
theorem same_addr_prefixes_collide (rib : RIB) (fib : FIB) (r1 r2 : Route)
    (hp : sameAddrDiffLen r1.pfx r2.pfx) (ho : r1.owner = r2.owner) :
    r1.routeIDKey = r2.routeIDKey ∧
    ribAtID (ribInsert (ribInsert rib r1) r2) r1.routeIDKey = [r2] ∧
    r1 ∉ ribInsert (ribInsert rib r1) r2 ∧
    fibAt (fibInsert (fibInsert fib r1) r2) r1.pfx.key = [r2] ∧
    r1 ∉ fibInsert (fibInsert fib r1) r2 := by
  have hkey : r1.pfx.key = r2.pfx.key := by
    rcases h1 : r1.pfx with p | p <;> rcases h2 : r2.pfx with q | q <;>
      rw [h1, h2] at hp <;>
      first
      | exact hp.elim
      | (obtain ⟨ha, -⟩ := hp
         simp [RPrefix.key, IPv4Prefix.key, IPv6Prefix.key, ha])
  have hne : r1 ≠ r2 := by
    intro he
    rcases h1 : r1.pfx with p | p <;> rcases h2 : r2.pfx with q | q <;>
      rw [h1, h2] at hp <;>
      first
      | exact hp.elim
      | (obtain ⟨-, hb⟩ := hp
         rw [he, h2] at h1
         exact hb (by injection h1 with h; rw [h]))
  have hid : r1.routeIDKey = r2.routeIDKey := by
    unfold Route.routeIDKey
    rw [hkey, ho]
  refine ⟨hid, ?_, ?_, ?_, ?_⟩
  · rw [hid, ribAtID_insert_self]
  · exact not_mem_ribInsert_of_same_key _ r2 r1 hid hne
  · rw [hkey, fibAt_insert_self]
  · exact not_mem_fibInsert_of_same_key _ r2 r1 hkey hne

/-- Witness for C10 at `10.0.0.0/24` / `10.0.0.0/25`, owner `ownerA`,
starting from empty tables. -/
theorem same_addr_prefixes_collide_witness :
    sameAddrDiffLen Fixtures.rtLen24.pfx Fixtures.rtLen25.pfx ∧
    ribAtID (ribInsert (ribInsert [] Fixtures.rtLen24) Fixtures.rtLen25)
      Fixtures.rtLen24.routeIDKey = [Fixtures.rtLen25] :=
  ⟨⟨by decide, by decide⟩,
    (same_addr_prefixes_collide [] [] Fixtures.rtLen24 Fixtures.rtLen25
      ⟨by decide, by decide⟩ rfl).2.1⟩

end Rib

namespace Exporter

/-! ## Claims C3 and C7: configuration validation and the managed VRF set -/

/-- **C3.** The first source variant of `NewRouteExporter` validates
`rec.PodCIDRProtocolID` in its `ExportLBIP` branch.  At a
configuration whose LB protocol ID is invalid (0) while the pod-CIDR
protocol ID is valid, it succeeds — although `validateProtocolID`
rejects the LB ID and the second source variant (`RouteExporterOptions`)
rejects the whole configuration; flipping only `PodCIDRProtocolID` to 0
flips the outcome, so the LB validation depends on the pod-CIDR
protocol ID. -/
theorem newRouteExporter_lb_validation_uses_podcidr_id :
    newRouteExporter Fixtures.cfgLBInvalid = none ∧
    validateProtocolID Fixtures.cfgLBInvalid.lbipProtocolID ≠ none ∧
    newRouteExporterOpts Fixtures.optsLBInvalid ≠ none ∧
    newRouteExporter { Fixtures.cfgLBInvalid with podCIDRProtocolID := 0 } ≠ none := by
  refine ⟨rfl, ?_, ?_, ?_⟩ <;> decide

/-- **C7.** With the route exporter enabled, `getVrfs` (the variant
used by the VRF+rule reconciler in src/unnamed/part_005) never returns
a link named like the pod-CIDR exporter's VRF or the LB-VIP exporter's
VRF; consequently the reconciler's delete branch never selects either
name for deletion. -/
theorem getVrfs_excludes_exporter_vrfs (cfg : DaemonConfig) (links : List NLLink)
    (desiredNames : List String) (hEnable : cfg.enableRouteExporter = true) :
    (∀ l ∈ getVrfs cfg links,
      l.name ≠ cfg.routeExporterPodCIDRVrfName ∧
      l.name ≠ cfg.routeExporterLBIPVrfName) ∧
    (∀ n ∈ reconcileVrfsDeletions cfg links desiredNames,
      n ≠ cfg.routeExporterPodCIDRVrfName ∧
      n ≠ cfg.routeExporterLBIPVrfName) := by
  have hmain : ∀ l ∈ getVrfs cfg links,
      l.name ≠ cfg.routeExporterPodCIDRVrfName ∧
      l.name ≠ cfg.routeExporterLBIPVrfName := by
    intro l hl
    unfold getVrfs at hl
    rw [List.mem_filter] at hl
    have hcond := hl.2
    simp only [hEnable, decide_eq_true_eq, true_and, not_or] at hcond
    exact ⟨hcond.2.2, hcond.2.1⟩
  refine ⟨hmain, ?_⟩
  intro n hn
  unfold reconcileVrfsDeletions at hn
  rw [List.mem_filter] at hn
  obtain ⟨hmem, -⟩ := hn
  rw [List.mem_map] at hmem
  obtain ⟨l, hl, rfl⟩ := hmem
  exact hmain l hl

/-- Witness for C7: with the exporter enabled and the kernel holding
the exporter's two VRFs plus an unmanaged one, neither exporter VRF
name is in the reconciler's delete set (even with nothing desired). -/
theorem getVrfs_excludes_exporter_vrfs_witness :
    Fixtures.cfgVrfEx.enableRouteExporter = true ∧
    ∀ n ∈ reconcileVrfsDeletions Fixtures.cfgVrfEx Fixtures.linksVrfEx [],
      n ≠ Fixtures.cfgVrfEx.routeExporterPodCIDRVrfName ∧
      n ≠ Fixtures.cfgVrfEx.routeExporterLBIPVrfName :=
  ⟨rfl,
    (getVrfs_excludes_exporter_vrfs Fixtures.cfgVrfEx Fixtures.linksVrfEx [] rfl).2⟩

end Exporter

namespace Rib

/-! ## Best-path processor lemmas and claim C1 -/

theorem minByDistance_cons (x y : Route) (ys : List Route) :
    minByDistance x (y :: ys) =
      minByDistance
        (if y.protocol.adminDistance < x.protocol.adminDistance then y else x) ys := rfl

theorem minByDistance_mem (xs : List Route) :
    ∀ x : Route, minByDistance x xs ∈ x :: xs := by
  induction xs with
  | nil => intro x; simp [minByDistance]
  | cons y ys ih =>
    intro x
    rw [minByDistance_cons]
    rcases List.mem_cons.mp
        (ih (if y.protocol.adminDistance < x.protocol.adminDistance then y else x)) with
      h | h
    · rw [h]
      by_cases hc : y.protocol.adminDistance < x.protocol.adminDistance
      · simp [hc]
      · simp [hc]
    · exact List.mem_cons_of_mem _ (List.mem_cons_of_mem _ h)

theorem minByDistance_le (xs : List Route) :
    ∀ x r, r ∈ x :: xs →
      (minByDistance x xs).protocol.adminDistance ≤ r.protocol.adminDistance := by
  induction xs with
  | nil =>
    intro x r hr
    rcases List.mem_cons.mp hr with h | h
    · rw [h]; simp [minByDistance]
    · exact absurd h (List.not_mem_nil r)
  | cons y ys ih =>
    intro x r hr
    rw [minByDistance_cons]
    by_cases hc : y.protocol.adminDistance < x.protocol.adminDistance
    · rw [if_pos hc]
      rcases List.mem_cons.mp hr with h | hr'
      · have h1 := ih y y (List.mem_cons_self y ys)
        rw [h]
        exact le_trans h1 (le_of_lt hc)
      · rcases List.mem_cons.mp hr' with h | hr''
        · rw [h]
          exact ih y y (List.mem_cons_self y ys)
        · exact ih y r (List.mem_cons_of_mem _ hr'')
    · rw [if_neg hc]
      rcases List.mem_cons.mp hr with h | hr'
      · rw [h]
        exact ih x x (List.mem_cons_self x ys)
      · rcases List.mem_cons.mp hr' with h | hr''
        · have h1 := ih x x (List.mem_cons_self x ys)
          rw [h]
          exact le_trans h1 (not_lt.mp hc)
        · exact ih x r (List.mem_cons_of_mem _ hr'')

theorem mem_ribRoutesFor (rib : RIB) (k : Key) (r : Route) :
    r ∈ ribRoutesFor rib k ↔ r ∈ rib ∧ r.pfx.key = k := by
  simp [ribRoutesFor, List.mem_filter]

theorem selectBest_none_iff (rib : RIB) (rt : Route) :
    selectBest rib rt = none ↔ ribRoutesFor rib rt.pfx.key = [] := by
  unfold selectBest
  cases h : ribRoutesFor rib rt.pfx.key <;> simp

theorem selectBest_some_spec (rib : RIB) (rt best : Route)
    (h : selectBest rib rt = some best) :
    best ∈ ribRoutesFor rib rt.pfx.key ∧
    ∀ r ∈ ribRoutesFor rib rt.pfx.key,
      best.protocol.adminDistance ≤ r.protocol.adminDistance := by
  unfold selectBest at h
  cases hh : ribRoutesFor rib rt.pfx.key with
  | nil => rw [hh] at h; simp at h
  | cons x xs =>
    rw [hh] at h
    simp only [Option.some.injEq] at h
    constructor
    · rw [← h]
      exact minByDistance_mem xs x
    · intro r hr
      rw [← h]
      exact minByDistance_le xs x r hr

theorem fibAt_insert_other (fib : FIB) (rt : Route) (k : Key) (hk : k ≠ rt.pfx.key) :
    fibAt (fibInsert fib rt) k = fibAt fib k := by
  unfold fibAt fibInsert
  rw [List.filter_cons_of_neg (by simpa using fun h => hk h.symm)]
  rw [List.filter_filter]
  apply List.filter_congr
  intro a ha
  by_cases h : a.pfx.key = k
  · simp [h, hk]
  · simp [h]

theorem fibAt_delete_self (fib : FIB) (rt : Route) :
    fibAt (fibDelete fib rt) rt.pfx.key = [] := by
  unfold fibAt fibDelete
  rw [List.filter_filter]
  apply List.filter_eq_nil_iff.mpr
  intro a ha
  simp

theorem fibAt_delete_other (fib : FIB) (rt : Route) (k : Key) (hk : k ≠ rt.pfx.key) :
    fibAt (fibDelete fib rt) k = fibAt fib k := by
  unfold fibAt fibDelete
  rw [List.filter_filter]
  apply List.filter_congr
  intro a ha
  by_cases h : a.pfx.key = k
  · simp [h, hk]
  · simp [h]

theorem processRoute_correct_self (rib : RIB) (fib : FIB) (rt : Route) :
    fibCorrectAt rib (processRoute rib fib rt) rt.pfx.key := by
  unfold processRoute
  cases h : selectBest rib rt with
  | none =>
    exact Or.inl ⟨(selectBest_none_iff rib rt).mp h, fibAt_delete_self fib rt⟩
  | some best =>
    obtain ⟨hmem, hmin⟩ := selectBest_some_spec rib rt best h
    have hkey : best.pfx.key = rt.pfx.key := ((mem_ribRoutesFor _ _ _).mp hmem).2
    refine Or.inr ⟨best, ?_, hmem, hmin⟩
    rw [← hkey]
    exact fibAt_insert_self fib best

theorem processRoute_frame (rib : RIB) (fib : FIB) (rt : Route) (k : Key)
    (hk : k ≠ rt.pfx.key) :
    fibAt (processRoute rib fib rt) k = fibAt fib k := by
  unfold processRoute
  cases h : selectBest rib rt with
  | none => exact fibAt_delete_other fib rt k hk
  | some best =>
    have hkey : best.pfx.key = rt.pfx.key :=
      ((mem_ribRoutesFor _ _ _).mp (selectBest_some_spec rib rt best h).1).2
    exact fibAt_insert_other fib best k (by rw [hkey]; exact hk)

theorem fibCorrectAt_of_fibAt_eq (rib : RIB) (f g : FIB) (k : Key)
    (h : fibAt f k = fibAt g k) (hc : fibCorrectAt rib g k) :
    fibCorrectAt rib f k := by
  unfold fibCorrectAt at hc ⊢
  rw [h]
  exact hc

theorem processChanges_correct (rib : RIB) (changes : List Route) :
    ∀ fib : FIB,
      (∀ k : Key, (∃ c ∈ changes, c.pfx.key = k) ∨ fibCorrectAt rib fib k) →
      ∀ k : Key, fibCorrectAt rib (processChanges rib fib changes) k := by
  induction changes with
  | nil =>
    intro fib h k
    rcases h k with ⟨c, hc, -⟩ | h'
    · exact absurd hc (List.not_mem_nil c)
    · exact h'
  | cons c cs ih =>
    intro fib h k
    show fibCorrectAt rib (processChanges rib (processRoute rib fib c) cs) k
    apply ih
    intro k'
    by_cases hk : k' = c.pfx.key
    · subst hk
      exact Or.inr (processRoute_correct_self rib fib c)
    · rcases h k' with ⟨d, hd, hdk⟩ | hcor
      · rcases List.mem_cons.mp hd with h' | hdcs
        · exact absurd (h' ▸ hdk) (fun he => hk he.symm)
        · exact Or.inl ⟨d, hdcs, hdk⟩
      · exact Or.inr
          (fibCorrectAt_of_fibAt_eq rib _ fib k' (processRoute_frame rib fib c k' hk) hcor)

/-- **C1.** Quiescence of the best-path processor: fix the RIB and let
the processor drain a pending change set that covers every prefix key
whose FIB slot is not already correct (the delete tracker reports every
inserted and deleted row, so at quiescence this covers every stale
prefix).  Then, for every prefix key: if the RIB still has a route with
that key, the FIB holds exactly one entry there — a RIB route for that
key of minimal `Protocol.AdminDistance()`; and if the last RIB route
with that key was deleted (no route remains), the FIB entry for it is
gone. -/
theorem fib_equals_argmin_after_quiescence
    (rib : RIB) (fib₀ : FIB) (changes : List Route)
    (hcov : ∀ k : Key, (∃ c ∈ changes, c.pfx.key = k) ∨ fibCorrectAt rib fib₀ k)
    (k : Key) :
    (ribRoutesFor rib k ≠ [] →
      ∃ best, fibAt (processChanges rib fib₀ changes) k = [best] ∧
        best ∈ ribRoutesFor rib k ∧
        ∀ r ∈ ribRoutesFor rib k,
          best.protocol.adminDistance ≤ r.protocol.adminDistance) ∧
    (ribRoutesFor rib k = [] → fibAt (processChanges rib fib₀ changes) k = []) := by
  rcases processChanges_correct rib changes fib₀ hcov k with ⟨h1, h2⟩ | ⟨best, h1, h2, h3⟩
  · exact ⟨fun hne => absurd h1 hne, fun _ => h2⟩
  · refine ⟨fun _ => ⟨best, h1, h2, h3⟩, fun he => ?_⟩
    rw [he] at h2
    exact absurd h2 (List.not_mem_nil best)

/-- Witness for C1: RIB holds the eBGP route (ownerB) and the
Kubernetes route (ownerA) for `10.0.0.0/24`; after processing the
pending change the FIB holds exactly the minimal-distance route. -/
theorem fib_equals_argmin_after_quiescence_witness :
    ∃ best,
      fibAt (processChanges [Fixtures.rtEBGPB, Fixtures.rtK8sA] [] [Fixtures.rtK8sA])
        Fixtures.rtK8sA.pfx.key = [best] ∧
      best ∈ ribRoutesFor [Fixtures.rtEBGPB, Fixtures.rtK8sA] Fixtures.rtK8sA.pfx.key ∧
      ∀ r ∈ ribRoutesFor [Fixtures.rtEBGPB, Fixtures.rtK8sA] Fixtures.rtK8sA.pfx.key,
        best.protocol.adminDistance ≤ r.protocol.adminDistance := by
  have hcov : ∀ k : Key,
      (∃ c ∈ [Fixtures.rtK8sA], c.pfx.key = k) ∨
      fibCorrectAt [Fixtures.rtEBGPB, Fixtures.rtK8sA] [] k := by
    intro k
    by_cases hk : k = Fixtures.rtK8sA.pfx.key
    · exact Or.inl ⟨Fixtures.rtK8sA, List.mem_cons_self _ _, hk.symm⟩
    · refine Or.inr (Or.inl ⟨?_, rfl⟩)
      apply List.filter_eq_nil_iff.mpr
      intro r hr
      have hkeys : r.pfx.key = Fixtures.rtK8sA.pfx.key := by
        rcases List.mem_cons.mp hr with h | hr2
        · rw [h]; decide
        · rcases List.mem_cons.mp hr2 with h | h3
          · rw [h]
          · exact absurd h3 (List.not_mem_nil r)
      rw [hkeys]
      simpa using fun h => hk h.symm
  exact (fib_equals_argmin_after_quiescence [Fixtures.rtEBGPB, Fixtures.rtK8sA] []
    [Fixtures.rtK8sA] hcov Fixtures.rtK8sA.pfx.key).1 (by decide)

end Rib

namespace Rib

/-! ## Claim C8: per-owner watch isolation -/

theorem stringKey_injective {s t : String} (h : stringKey s = stringKey t) : s = t := by
  apply String.toList_inj.mp
  exact List.map_injective_iff.mpr (fun _ _ hc => Char.eq_of_val_eq (UInt32.ext hc)) h

theorem as16_length (a : Nat) : (as16 a).length = 16 := by
  simp [as16]

/-- Equal RIB primary keys imply equal owners: the kind byte
disambiguates the families, the address-byte block has fixed length per
family, and `index.String` is injective. -/
theorem routeIDKey_owner_eq {r s : Route} (h : r.routeIDKey = s.routeIDKey) :
    r.owner = s.owner := by
  unfold Route.routeIDKey at h
  rcases hr : r.pfx with p | p <;> rcases hs : s.pfx with q | q <;> rw [hr, hs] at h
  · simp only [RPrefix.key, IPv4Prefix.key] at h
    have hlen : (prefixKindIPv4 :: as4 p.addr).length =
        (prefixKindIPv4 :: as4 q.addr).length := by simp [as4]
    exact stringKey_injective (List.append_inj h hlen).2
  · simp only [RPrefix.key, IPv4Prefix.key, IPv6Prefix.key, List.cons_append] at h
    injection h with h1 _
    exact absurd h1 (by decide)
  · simp only [RPrefix.key, IPv4Prefix.key, IPv6Prefix.key, List.cons_append] at h
    injection h with h1 _
    exact absurd h1 (by decide)
  · simp only [RPrefix.key, IPv6Prefix.key] at h
    have hlen : (prefixKindIPv6 :: as16 p.addr).length =
        (prefixKindIPv6 :: as16 q.addr).length := by simp [as16_length]
    exact stringKey_injective (List.append_inj h hlen).2

theorem ownerQuery_ribInsert (rib : RIB) (rt : Route) (B : String) (h : rt.owner ≠ B) :
    ownerQuery (ribInsert rib rt) B = ownerQuery rib B := by
  unfold ownerQuery ribInsert
  rw [List.filter_cons_of_neg (by simpa using h)]
  rw [List.filter_filter]
  apply List.filter_congr
  intro a ha
  by_cases ho : a.owner = B
  · have hne : ¬ a.routeIDKey = rt.routeIDKey := fun hh =>
      h (Eq.trans (routeIDKey_owner_eq hh).symm ho)
    simp [ho, hne]
  · simp [ho]

theorem ownerQuery_ribDelete (rib : RIB) (rt : Route) (B : String) (h : rt.owner ≠ B) :
    ownerQuery (ribDelete rib rt) B = ownerQuery rib B := by
  unfold ownerQuery ribDelete
  rw [List.filter_filter]
  apply List.filter_congr
  intro a ha
  by_cases ho : a.owner = B
  · have hne : ¬ a.routeIDKey = rt.routeIDKey := fun hh =>
      h (Eq.trans (routeIDKey_owner_eq hh).symm ho)
    simp [ho, hne]
  · simp [ho]

theorem ownerQuery_foldl_ribInsert (l : List Route) :
    ∀ (rib : RIB) (B : String), (∀ r ∈ l, r.owner ≠ B) →
      ownerQuery (l.foldl ribInsert rib) B = ownerQuery rib B := by
  induction l with
  | nil => intro rib B _; rfl
  | cons x xs ih =>
    intro rib B h
    rw [List.foldl_cons,
      ih (ribInsert rib x) B (fun r hr => h r (List.mem_cons_of_mem _ hr)),
      ownerQuery_ribInsert rib x B (h x (List.mem_cons_self x xs))]

theorem ownerQuery_foldl_ribDelete (l : List Route) :
    ∀ (rib : RIB) (B : String), (∀ r ∈ l, r.owner ≠ B) →
      ownerQuery (l.foldl ribDelete rib) B = ownerQuery rib B := by
  induction l with
  | nil => intro rib B _; rfl
  | cons x xs ih =>
    intro rib B h
    rw [List.foldl_cons,
      ih (ribDelete rib x) B (fun r hr => h r (List.mem_cons_of_mem _ hr)),
      ownerQuery_ribDelete rib x B (h x (List.mem_cons_self x xs))]

/-- **C8.** A committed RIB write transaction that inserts or deletes
only routes owned by `A` neither signals the watch of a
`Get(OwnerIndex, B)` query for any other owner `B`, nor changes that
query's answer (the model's soundness condition for not signaling). -/
theorem owner_watch_isolation (rib : RIB) (tx : WriteTx) (A B : String)
    (hAB : A ≠ B) (hA : ∀ r ∈ tx.inserts ++ tx.deletes, r.owner = A) :
    ownerWatchSignaled tx B = false ∧
    ownerQuery (applyTx rib tx) B = ownerQuery rib B := by
  have hins : ∀ r ∈ tx.inserts, r.owner ≠ B := fun r hr hB =>
    hAB (Eq.trans (hA r (List.mem_append_left _ hr)).symm hB)
  have hdel : ∀ r ∈ tx.deletes, r.owner ≠ B := fun r hr hB =>
    hAB (Eq.trans (hA r (List.mem_append_right _ hr)).symm hB)
  constructor
  · unfold ownerWatchSignaled
    rw [List.any_eq_false]
    intro r hr
    rcases List.mem_append.mp hr with h | h
    · simpa using hins r h
    · simpa using hdel r h
  · unfold applyTx
    rw [ownerQuery_foldl_ribDelete _ _ _ hdel, ownerQuery_foldl_ribInsert _ _ _ hins]

/-- Witness for C8: the multi-writer test scenario — both owners'
routes committed, then owner A inserts a route with a new prefix; owner
B's watch is not signaled and B's query answer is unchanged. -/
theorem owner_watch_isolation_witness :
    ownerWatchSignaled ⟨[Fixtures.rtOtherPrefixA], []⟩ "ownerB" = false ∧
    ownerQuery (applyTx [Fixtures.rtK8sA, Fixtures.rtEBGPB]
        ⟨[Fixtures.rtOtherPrefixA], []⟩) "ownerB" =
      ownerQuery [Fixtures.rtK8sA, Fixtures.rtEBGPB] "ownerB" :=
  owner_watch_isolation [Fixtures.rtK8sA, Fixtures.rtEBGPB]
    ⟨[Fixtures.rtOtherPrefixA], []⟩ "ownerA" "ownerB" (by decide) (by decide)

end Rib

namespace Exporter

/-! ## Claims C2 and C6: VRF ensure and idempotent deletes -/

/-- Looking a link up after `linkAddVrf` finds either an older link of
that name or the newly appended VRF device. -/
theorem linkByName_linkAddVrf (ls : LinkState) (n : String) (tableID : Nat) :
    linkByName (linkAddVrf ls n tableID) n =
      (linkByName ls n).or (some ⟨n, true, tableID, false, ls.nextIndex⟩) := by
  unfold linkByName linkAddVrf
  rw [List.find?_append]
  simp

/-- In the model `getOrCreateVrf` always succeeds: the only recoverable
condition is "link not found", and creation follows it. -/
theorem getOrCreateVrf_succeeds (ls : LinkState) (name : String) (tableID : Nat) :
    ∃ ls' vrf, getOrCreateVrf ls name tableID = (ls', some vrf) := by
  unfold getOrCreateVrf
  cases hf : linkByName ls name with
  | some l =>
    by_cases hup : l.operUp
    · exact ⟨ls, l, by simp [hup]⟩
    · exact ⟨linkSetUp ls name, l, by simp [hup]⟩
  | none =>
    have hfind : linkByName (linkAddVrf ls name tableID) name =
        some ⟨name, true, tableID, false, ls.nextIndex⟩ := by
      rw [linkByName_linkAddVrf, hf]
      rfl
    refine ⟨linkSetUp (linkAddVrf ls name tableID) name,
      ⟨name, true, tableID, false, ls.nextIndex⟩, ?_⟩
    simp [hfind]

/-- **C2 counterexample.** A link named `vrf-pod` exists bound to table
100 while table 200 is requested: `getOrCreateVrf` succeeds anyway,
returning the mismatched link unchanged (there is no `VrfMismatch`
check in the source), the reconcile pass then installs a route into
table 200 without error — so `lastError` is not set. -/
theorem getOrCreateVrf_no_mismatch_check_counterexample :
    (getOrCreateVrf Fixtures.lsMismatch "vrf-pod" 200).2 =
      some ⟨"vrf-pod", true, 100, true, 7⟩ ∧
    (podCIDRPass "vrf-pod" 200 4 [AF_INET] ⟨["10.0.0.0/24"]⟩
      Fixtures.lsMismatch []).errored = false ∧
    (podCIDRPass "vrf-pod" 200 4 [AF_INET] ⟨["10.0.0.0/24"]⟩
      Fixtures.lsMismatch []).kernel ≠ [] := by
  refine ⟨by decide, by decide, by decide⟩

/-- **C2 (amended).** When a link with the requested name exists,
`getOrCreateVrf` returns it successfully — regardless of the table the
link is bound to (it only brings the device up if needed) — and the
outcome of the surrounding reconcile pass is decided solely by the
route operations. -/
theorem getOrCreateVrf_returns_existing_link (ls : LinkState) (name : String)
    (tableID protocolID : Nat) (l : Link) (addSet deleteSet : PrefixSet) (st : Kernel)
    (hfound : linkByName ls name = some l) :
    (getOrCreateVrf ls name tableID).2 = some l ∧
    (reconcileKernelRoutes name tableID protocolID addSet deleteSet ls st).errored =
      (reconcileRoutes l.index tableID protocolID addSet deleteSet st).2.2 := by
  have hvrf : getOrCreateVrf ls name tableID =
      (if l.operUp then ls else linkSetUp ls name, some l) := by
    unfold getOrCreateVrf
    rw [hfound]
    by_cases hup : l.operUp <;> simp [hup]
  refine ⟨by rw [hvrf], ?_⟩
  unfold reconcileKernelRoutes
  rw [hvrf]

/-- Witness for the amended C2 at the mismatched fixture: the link
bound to table 100 is found and returned while table 200 is
requested. -/
theorem getOrCreateVrf_returns_existing_link_witness :
    linkByName Fixtures.lsMismatch "vrf-pod" = some ⟨"vrf-pod", true, 100, true, 7⟩ ∧
    (getOrCreateVrf Fixtures.lsMismatch "vrf-pod" 200).2 =
      some ⟨"vrf-pod", true, 100, true, 7⟩ :=
  ⟨by decide,
    (getOrCreateVrf_returns_existing_link Fixtures.lsMismatch "vrf-pod" 200 4
      ⟨"vrf-pod", true, 100, true, 7⟩ ⟨[]⟩ ⟨[]⟩ [] (by decide)).1⟩

theorem routeDel_fst (st : Kernel) (r : KRoute) :
    (routeDel st r).1 = st.filter (fun q => ¬ kmatch q r) := by
  unfold routeDel
  by_cases h : st.any (fun q => kmatch q r) = true
  · simp [h]
  · rw [if_neg h]
    have hall : ∀ q ∈ st, ¬ kmatch q r := by
      intro q hq
      have := List.any_eq_false.mp (Bool.eq_false_iff.mpr h) q hq
      simpa using this
    simp only []
    rw [List.filter_eq_self.mpr]
    intro a ha
    simpa using hall a ha

theorem routeDel_snd (st : Kernel) (r : KRoute) :
    (routeDel st r).2 = none ∨ (routeDel st r).2 = some EEXIST := by
  unfold routeDel
  by_cases h : st.any (fun q => kmatch q r) = true
  · simp [h]
  · simp [h]

/-- The delete loop of `deleteKernelRoutes` never errors: a missing
route yields the `EEXIST` errno, which is swallowed, and the loop
continues; the final state has every matching `(table, protocol, dst)`
tuple removed. -/
theorem deleteKernelRoutesLoop_spec (vrfIfindex tableID protocolID : Nat) :
    ∀ (ps : List IPNet) (st : Kernel),
      deleteKernelRoutesLoop vrfIfindex tableID protocolID ps st =
        (st.filter (fun q => ¬ ∃ p ∈ ps,
          kmatch q ⟨vrfIfindex, some p, tableID, protocolID, AF_INET⟩), false) := by
  intro ps
  induction ps with
  | nil =>
    intro st
    unfold deleteKernelRoutesLoop
    rw [List.filter_eq_self.mpr]
    intro a ha
    simp
  | cons p ps ih =>
    intro st
    show (match routeDel st ⟨vrfIfindex, some p, tableID, protocolID, AF_INET⟩ with
      | (st', some errno) =>
        if errno = EEXIST then deleteKernelRoutesLoop vrfIfindex tableID protocolID ps st'
        else (st', true)
      | (st', none) => deleteKernelRoutesLoop vrfIfindex tableID protocolID ps st') = _
    rcases hd : routeDel st ⟨vrfIfindex, some p, tableID, protocolID, AF_INET⟩ with ⟨st', e⟩
    have hfst : st' = st.filter
        (fun q => ¬ kmatch q ⟨vrfIfindex, some p, tableID, protocolID, AF_INET⟩) := by
      have := routeDel_fst st ⟨vrfIfindex, some p, tableID, protocolID, AF_INET⟩
      rw [hd] at this
      exact this
    have hrec : deleteKernelRoutesLoop vrfIfindex tableID protocolID ps st' =
        (st.filter (fun q => ¬ ∃ x ∈ p :: ps,
          kmatch q ⟨vrfIfindex, some x, tableID, protocolID, AF_INET⟩), false) := by
      rw [ih st', hfst, List.filter_filter]
      congr 1
      apply List.filter_congr
      intro a ha
      by_cases h1 : kmatch a ⟨vrfIfindex, some p, tableID, protocolID, AF_INET⟩
      · simp [h1]
      · simp [h1]
    rcases e with _ | errno
    · simpa using hrec
    · have he : errno = EEXIST := by
        rcases routeDel_snd st ⟨vrfIfindex, some p, tableID, protocolID, AF_INET⟩ with h | h <;>
          rw [hd] at h <;> simp at h
        exact h
      simpa [he] using hrec

/-- **C6.** `deleteKernelRoutes` treats a missing route as the
successful idempotent outcome: for any delete set (present or missing
in the kernel), it never reports an error, it processes every prefix
(the final state removes exactly the matching tuples of *all* given
prefixes), and the not-found condition is invisible to the caller. -/
theorem deleteKernelRoutes_swallows_missing (vrfName : String)
    (tableID protocolID : Nat) (prefixes : List IPNet) (ls : LinkState) (st : Kernel) :
    ∃ ls' vrf, getOrCreateVrf ls vrfName tableID = (ls', some vrf) ∧
      deleteKernelRoutes vrfName tableID protocolID prefixes ls st =
        (ls', st.filter (fun q => ¬ ∃ p ∈ prefixes,
          kmatch q ⟨vrf.index, some p, tableID, protocolID, AF_INET⟩), false) := by
  obtain ⟨ls', vrf, hvrf⟩ := getOrCreateVrf_succeeds ls vrfName tableID
  refine ⟨ls', vrf, hvrf, ?_⟩
  unfold deleteKernelRoutes
  rw [hvrf]
  show (match deleteKernelRoutesLoop vrf.index tableID protocolID prefixes st with
    | (st', e) => (ls', st', e)) = _
  rw [deleteKernelRoutesLoop_spec]

end Exporter

namespace Exporter

/-! ## Claim C4: idempotence of the pod-CIDR reconcile pass -/

/-- **C4 counterexample.** For the desired set `{"10.0.0.1/24"}` — a
syntactically valid but non-canonical CIDR string — and an empty
kernel, the first pass installs the masked route `10.0.0.0/24`; the
second pass lists it back as `"10.0.0.0/24"`, which differs textually
from the desired string, so the diff re-adds `10.0.0.1/24` (the same
masked tuple) and then deletes `10.0.0.0/24`: the route is gone and the
second pass issued writes.  Running the pass twice does not equal
running it once. -/
theorem reconcile_not_idempotent_counterexample :
    (podCIDRPass "cilium-vrf" 100 4 [AF_INET] ⟨["10.0.0.1/24"]⟩
        (podCIDRPass "cilium-vrf" 100 4 [AF_INET] ⟨["10.0.0.1/24"]⟩ ⟨[], 1⟩ []).links
        (podCIDRPass "cilium-vrf" 100 4 [AF_INET] ⟨["10.0.0.1/24"]⟩ ⟨[], 1⟩ []).kernel).kernel ≠
      (podCIDRPass "cilium-vrf" 100 4 [AF_INET] ⟨["10.0.0.1/24"]⟩ ⟨[], 1⟩ []).kernel ∧
    (podCIDRPass "cilium-vrf" 100 4 [AF_INET] ⟨["10.0.0.1/24"]⟩
        (podCIDRPass "cilium-vrf" 100 4 [AF_INET] ⟨["10.0.0.1/24"]⟩ ⟨[], 1⟩ []).links
        (podCIDRPass "cilium-vrf" 100 4 [AF_INET] ⟨["10.0.0.1/24"]⟩ ⟨[], 1⟩ []).kernel).writes ≠ 0 := by
  refine ⟨by decide, by decide⟩

end Exporter

namespace Exporter

theorem kmatch_mk (r : KRoute) (idx T P : Nat) (d : Option IPNet) (fam : Nat) :
    kmatch r ⟨idx, d, T, P, fam⟩ ↔ r.table = T ∧ r.protocol = P ∧ r.dst = d :=
  Iff.rfl

theorem mem_routeReplace (st : Kernel) (rt r : KRoute) :
    r ∈ routeReplace st rt ↔ r = rt ∨ (r ∈ st ∧ ¬ kmatch r rt) := by
  unfold routeReplace
  rw [List.mem_cons, List.mem_filter]
  simp

/-- The add loop with all prefixes parseable: never errors, issues one
write per prefix, and the resulting state holds exactly the old routes
not superseded by an add plus the added tuples. -/
theorem applyAdds_spec (idx T P : Nat) (ps : List String) :
    ∀ (st : Kernel) (w : Nat),
      (∀ p ∈ ps, ∃ n, parseCIDR p = some n) →
      ∃ st', applyAdds idx T P ps st w = (st', w + ps.length, false) ∧
        ∀ r, r ∈ st' ↔
          ((r ∈ st ∧ ∀ p ∈ ps, ∀ n, parseCIDR p = some n →
              ¬ kmatch r ⟨idx, some n, T, P, AF_INET⟩) ∨
           (∃ p ∈ ps, ∃ n, parseCIDR p = some n ∧
              r = ⟨idx, some n, T, P, AF_INET⟩)) := by
  induction ps with
  | nil =>
    intro st w _
    exact ⟨st, rfl, by simp⟩
  | cons p ps ih =>
    intro st w hp
    obtain ⟨n, hn⟩ := hp p (List.mem_cons_self p ps)
    obtain ⟨st', hrun, hmem⟩ :=
      ih (routeReplace st ⟨idx, some n, T, P, AF_INET⟩) (w + 1)
        (fun q hq => hp q (List.mem_cons_of_mem p hq))
    refine ⟨st', ?_, ?_⟩
    · have hstep : applyAdds idx T P (p :: ps) st w =
          applyAdds idx T P ps (routeReplace st ⟨idx, some n, T, P, AF_INET⟩) (w + 1) := by
        show (match parseCIDR p with
          | none => (st, w, true)
          | some dst =>
            applyAdds idx T P ps
              (routeReplace st ⟨idx, some dst, T, P, AF_INET⟩) (w + 1)) = _
        rw [hn]
      rw [hstep, hrun]
      have harith : w + 1 + ps.length = w + (ps.length + 1) := by omega
      rw [harith]
      rfl
    · intro r
      rw [hmem r, mem_routeReplace]
      constructor
      · rintro (⟨(hr1 | ⟨hrst, hnm⟩), hno⟩ | ⟨q, hq, m, hm, hrm⟩)
        · exact Or.inr ⟨p, List.mem_cons_self p ps, n, hn, hr1⟩
        · refine Or.inl ⟨hrst, ?_⟩
          intro q hq m hm
          rcases List.mem_cons.mp hq with h | h
          · rw [h] at hm
            rw [hm] at hn
            injection hn with hn'
            rw [hn']
            exact hnm
          · exact hno q h m hm
        · exact Or.inr ⟨q, List.mem_cons_of_mem p hq, m, hm, hrm⟩
      · rintro (⟨hrst, hno⟩ | ⟨q, hq, m, hm, hrm⟩)
        · refine Or.inl ⟨Or.inr ⟨hrst, hno p (List.mem_cons_self p ps) n hn⟩, ?_⟩
          intro q hq m hm
          exact hno q (List.mem_cons_of_mem p hq) m hm
        · rcases List.mem_cons.mp hq with h | h
          · rw [h] at hm
            rw [hm] at hn
            injection hn with hn'
            rw [hn'] at hrm
            by_cases hin : ∃ q' ∈ ps, ∃ m', parseCIDR q' = some m' ∧
                kmatch (⟨idx, some n, T, P, AF_INET⟩ : KRoute)
                  ⟨idx, some m', T, P, AF_INET⟩
            · obtain ⟨q', hq', m', hm', hk⟩ := hin
              rw [kmatch_mk] at hk
              obtain ⟨-, -, hd⟩ := hk
              injection hd with hd'
              refine Or.inr ⟨q', hq', m', hm', ?_⟩
              rw [hrm, hd']
            · refine Or.inl ⟨Or.inl hrm, ?_⟩
              intro q' hq' m' hm' hk
              exact hin ⟨q', hq', m', hm', by rw [hrm] at hk; exact hk⟩
          · exact Or.inr ⟨q, h, m, hm, hrm⟩

end Exporter

namespace Exporter

theorem mem_routeDel_fst (st : Kernel) (rt r : KRoute) :
    r ∈ (routeDel st rt).1 ↔ r ∈ st ∧ ¬ kmatch r rt := by
  rw [routeDel_fst, List.mem_filter]
  simp

/-- The delete loop of `reconcileRoutes` when every prefix parses, is
the render of its (present) kernel route, and the prefixes are
pairwise distinct: never errors, issues one write per prefix, and the
resulting state drops exactly the matching tuples. -/
theorem applyDels_spec (idx T P : Nat) (ps : List String) :
    ∀ (st : Kernel) (w : Nat),
      (∀ p ∈ ps, ∃ n, parseCIDR p = some n ∧ renderIPNet n = p ∧
        ∃ r ∈ st, kmatch r ⟨idx, some n, T, P, AF_INET⟩) →
      ps.Nodup →
      ∃ st', applyDels idx T P ps st w = (st', w + ps.length, false) ∧
        ∀ r, r ∈ st' ↔ r ∈ st ∧ ∀ p ∈ ps, ∀ n, parseCIDR p = some n →
          ¬ kmatch r ⟨idx, some n, T, P, AF_INET⟩ := by
  induction ps with
  | nil =>
    intro st w _ _
    exact ⟨st, rfl, by simp⟩
  | cons p ps ih =>
    intro st w hp hnd
    obtain ⟨hpnotin, hndtail⟩ := List.nodup_cons.mp hnd
    obtain ⟨n, hn, hren, r₀, hr₀, hk₀⟩ := hp p (List.mem_cons_self p ps)
    have hany : st.any (fun q => kmatch q ⟨idx, some n, T, P, AF_INET⟩) = true := by
      rw [List.any_eq_true]
      exact ⟨r₀, hr₀, by simpa using hk₀⟩
    have hdel : routeDel st ⟨idx, some n, T, P, AF_INET⟩ =
        (st.filter (fun q => ¬ kmatch q ⟨idx, some n, T, P, AF_INET⟩), none) := by
      unfold routeDel
      rw [if_pos hany]
    have hstep : applyDels idx T P (p :: ps) st w =
        applyDels idx T P ps
          (st.filter (fun q => ¬ kmatch q ⟨idx, some n, T, P, AF_INET⟩)) (w + 1) := by
      show (match parseCIDR p with
        | none => (st, w, true)
        | some dst =>
          match routeDel st ⟨idx, some dst, T, P, AF_INET⟩ with
          | (st', some _) => (st', w + 1, true)
          | (st', none) => applyDels idx T P ps st' (w + 1)) = _
      rw [hn]
      show (match routeDel st ⟨idx, some n, T, P, AF_INET⟩ with
        | (st', some _) => (st', w + 1, true)
        | (st', none) => applyDels idx T P ps st' (w + 1)) = _
      rw [hdel]
    have hp' : ∀ q ∈ ps, ∃ m, parseCIDR q = some m ∧ renderIPNet m = q ∧
        ∃ r ∈ st.filter (fun q' => ¬ kmatch q' ⟨idx, some n, T, P, AF_INET⟩),
          kmatch r ⟨idx, some m, T, P, AF_INET⟩ := by
      intro q hq
      obtain ⟨m, hm, hrenm, r', hr', hk'⟩ := hp q (List.mem_cons_of_mem p hq)
      refine ⟨m, hm, hrenm, r', ?_, hk'⟩
      rw [List.mem_filter]
      refine ⟨hr', ?_⟩
      have hnk : ¬ kmatch r' ⟨idx, some n, T, P, AF_INET⟩ := by
        intro hk
        rw [kmatch_mk] at hk hk'
        have hd : (some n : Option IPNet) = some m := by
          rw [← hk.2.2, hk'.2.2]
        injection hd with hd'
        rw [hd', hrenm] at hren
        rw [hren] at hq
        exact hpnotin hq
      simpa using hnk
    obtain ⟨st', hrun, hmem⟩ :=
      ih (st.filter (fun q' => ¬ kmatch q' ⟨idx, some n, T, P, AF_INET⟩)) (w + 1) hp' hndtail
    refine ⟨st', ?_, ?_⟩
    · rw [hstep, hrun]
      have harith : w + 1 + ps.length = w + (ps.length + 1) := by omega
      rw [harith]
      rfl
    · intro r
      rw [hmem r, List.mem_filter]
      constructor
      · rintro ⟨⟨hrst, hnk⟩, hno⟩
        refine ⟨hrst, ?_⟩
        intro q hq m hm
        rcases List.mem_cons.mp hq with h | h
        · rw [h] at hm
          rw [hm] at hn
          injection hn with hn'
          rw [hn']
          simpa using hnk
        · exact hno q h m hm
      · rintro ⟨hrst, hno⟩
        refine ⟨⟨hrst, ?_⟩, ?_⟩
        · have := hno p (List.mem_cons_self p ps) n hn
          simpa using this
        · intro q hq m hm
          exact hno q (List.mem_cons_of_mem p hq) m hm

end Exporter

namespace Exporter

theorem mem_foldl_collectDst (routes : List KRoute) :
    ∀ (s : PrefixSet) (q : String),
      q ∈ (routes.foldl collectDst s).prefixes ↔
        q ∈ s.prefixes ∨ ∃ r ∈ routes, ∃ n, r.dst = some n ∧ q = renderIPNet n := by
  induction routes with
  | nil => simp
  | cons r rs ih =>
    intro s q
    rw [List.foldl_cons]
    cases hd : r.dst with
    | none =>
      have hstep : collectDst s r = s := by
        unfold collectDst
        rw [hd]
      rw [hstep, ih]
      constructor
      · rintro (hs | ⟨r', hr', n, hn, hq⟩)
        · exact Or.inl hs
        · exact Or.inr ⟨r', List.mem_cons_of_mem _ hr', n, hn, hq⟩
      · rintro (hs | ⟨r', hr', n, hn, hq⟩)
        · exact Or.inl hs
        · rcases List.mem_cons.mp hr' with h | h
          · rw [h, hd] at hn
            exact absurd hn (by simp)
          · exact Or.inr ⟨r', h, n, hn, hq⟩
    | some d =>
      have hstep : collectDst s r = s.add (renderIPNet d) := by
        unfold collectDst
        rw [hd]
      rw [hstep, ih]
      constructor
      · rintro (hs | ⟨r', hr', n, hn, hq⟩)
        · rcases (PrefixSet.mem_add s (renderIPNet d) q).mp hs with h | h
          · exact Or.inl h
          · exact Or.inr ⟨r, List.mem_cons_self r rs, d, hd, h⟩
        · exact Or.inr ⟨r', List.mem_cons_of_mem _ hr', n, hn, hq⟩
      · rintro (hs | ⟨r', hr', n, hn, hq⟩)
        · exact Or.inl ((PrefixSet.mem_add s (renderIPNet d) q).mpr (Or.inl hs))
        · rcases List.mem_cons.mp hr' with h | h
          · rw [h, hd] at hn
            injection hn with hn'
            exact Or.inl ((PrefixSet.mem_add s (renderIPNet d) q).mpr
              (Or.inr (by rw [hq, ← hn'])))
          · exact Or.inr ⟨r', h, n, hn, hq⟩

theorem mem_routeListFiltered (st : Kernel) (af T P : Nat) (r : KRoute) :
    r ∈ routeListFiltered st af T P ↔
      r ∈ st ∧ r.family = af ∧ r.table = T ∧ r.protocol = P := by
  unfold routeListFiltered
  rw [List.mem_filter]
  simp

theorem mem_getKernelRoutes (st : Kernel) (T P : Nat) (afs : List Nat) (q : String) :
    q ∈ (getKernelRoutes st T P afs).prefixes ↔
      ∃ af ∈ afs, ∃ r ∈ st, r.family = af ∧ r.table = T ∧ r.protocol = P ∧
        ∃ n, r.dst = some n ∧ q = renderIPNet n := by
  unfold getKernelRoutes
  suffices h : ∀ (s : PrefixSet),
      q ∈ (afs.foldl (listFamilyStep st T P) s).prefixes ↔
        q ∈ s.prefixes ∨ ∃ af ∈ afs, ∃ r ∈ st, r.family = af ∧ r.table = T ∧ r.protocol = P ∧
          ∃ n, r.dst = some n ∧ q = renderIPNet n by
    rw [h newPrefixSet]
    simp [newPrefixSet]
  induction afs with
  | nil => simp
  | cons af afs ih =>
    intro s
    rw [List.foldl_cons]
    have hstep : ∀ x, x ∈ (listFamilyStep st T P s af).prefixes ↔
        x ∈ s.prefixes ∨ ∃ r ∈ st, r.family = af ∧ r.table = T ∧ r.protocol = P ∧
          ∃ n, r.dst = some n ∧ x = renderIPNet n := by
      intro x
      unfold listFamilyStep
      rw [mem_foldl_collectDst]
      constructor
      · rintro (hs | ⟨r, hr, n, hn, hx⟩)
        · exact Or.inl hs
        · obtain ⟨hrst, hfam, htab, hproto⟩ := (mem_routeListFiltered st af T P r).mp hr
          exact Or.inr ⟨r, hrst, hfam, htab, hproto, n, hn, hx⟩
      · rintro (hs | ⟨r, hrst, hfam, htab, hproto, n, hn, hx⟩)
        · exact Or.inl hs
        · exact Or.inr ⟨r, (mem_routeListFiltered st af T P r).mpr
            ⟨hrst, hfam, htab, hproto⟩, n, hn, hx⟩
    rw [ih (listFamilyStep st T P s af)]
    constructor
    · rintro (hs | ⟨af', haf', rest⟩)
      · rcases (hstep q).mp hs with h | ⟨r, hrst, hfam, htab, hproto, n, hn, hx⟩
        · exact Or.inl h
        · exact Or.inr ⟨af, List.mem_cons_self af afs, r, hrst, hfam, htab, hproto, n, hn, hx⟩
      · exact Or.inr ⟨af', List.mem_cons_of_mem _ haf', rest⟩
    · rintro (hs | ⟨af', haf', r, hrst, hfam, htab, hproto, n, hn, hx⟩)
      · exact Or.inl ((hstep q).mpr (Or.inl hs))
      · rcases List.mem_cons.mp haf' with h | h
        · exact Or.inl ((hstep q).mpr (Or.inr ⟨r, hrst, by rw [hfam, h], htab, hproto, n, hn, hx⟩))
        · exact Or.inr ⟨af', h, r, hrst, hfam, htab, hproto, n, hn, hx⟩

theorem PrefixSet.nodup_add (ps : PrefixSet) (p : String) (h : ps.prefixes.Nodup) :
    (ps.add p).prefixes.Nodup := by
  unfold PrefixSet.add
  by_cases hc : p ∈ ps.prefixes
  · rw [if_pos (by simpa using hc)]
    exact h
  · rw [if_neg (by simpa using hc)]
    simp [List.nodup_append, h, hc]

theorem distance_deleteSet_nodup (desired current : PrefixSet) :
    (desired.distance current).2.prefixes.Nodup := by
  unfold PrefixSet.distance
  suffices h : ∀ (cs : List String) (A D : PrefixSet), D.prefixes.Nodup →
      (cs.foldl (distStep desired) (A, D)).2.prefixes.Nodup by
    exact h current.prefixes desired.dup newPrefixSet (by simp [newPrefixSet])
  intro cs
  induction cs with
  | nil =>
    intro A D h
    exact h
  | cons c cs ih =>
    intro A D h
    rw [List.foldl_cons]
    by_cases hc : desired.has c
    · rw [show distStep desired (A, D) c = (A.del c, D) by simp [distStep, hc]]
      exact ih (A.del c) D h
    · rw [show distStep desired (A, D) c = (A, D.add c) by simp [distStep, hc]]
      exact ih A (D.add c) (PrefixSet.nodup_add D c h)

end Exporter

namespace Exporter

theorem linkByName_linkSetUp (ls : LinkState) (n : String) :
    linkByName (linkSetUp ls n) n =
      (linkByName ls n).map (fun l => { l with operUp := true }) := by
  unfold linkByName linkSetUp
  suffices h : ∀ (L : List Link),
      (L.map (fun l => if l.name == n then { l with operUp := true } else l)).find?
          (fun l => l.name == n) =
        (L.find? (fun l => l.name == n)).map (fun l => { l with operUp := true }) by
    exact h ls.links
  intro L
  induction L with
  | nil => rfl
  | cons c cs ih =>
    by_cases hc : c.name == n
    · have hceq : c.name = n := by simpa using hc
      simp [List.find?_cons, hceq]
    · simp only [List.map_cons]
      rw [if_neg (by simpa using hc)]
      rw [List.find?_cons_of_neg _ (by simpa using hc),
        List.find?_cons_of_neg _ (by simpa using hc)]
      exact ih

/-- After a successful `getOrCreateVrf`, the named link exists and is
up, so a second call is a no-op: it returns the same link state. -/
theorem getOrCreateVrf_stable (ls : LinkState) (name : String) (tableID : Nat)
    (ls₁ : LinkState) (vrf : Link)
    (h : getOrCreateVrf ls name tableID = (ls₁, some vrf)) :
    ∃ vrf', getOrCreateVrf ls₁ name tableID = (ls₁, some vrf') := by
  cases hf : linkByName ls name with
  | some l =>
    have hred : getOrCreateVrf ls name tableID =
        (if l.operUp then ls else linkSetUp ls name, some l) := by
      unfold getOrCreateVrf
      rw [hf]
      by_cases hup : l.operUp <;> simp [hup]
    rw [hred] at h
    by_cases hup : l.operUp
    · rw [if_pos hup] at h
      injection h with h1 h2
      subst h1
      exact ⟨l, by simp [getOrCreateVrf, hf, hup]⟩
    · rw [if_neg hup] at h
      injection h with h1 h2
      subst h1
      refine ⟨{ l with operUp := true }, ?_⟩
      simp [getOrCreateVrf, linkByName_linkSetUp, hf]
  | none =>
    have hfind : linkByName (linkAddVrf ls name tableID) name =
        some ⟨name, true, tableID, false, ls.nextIndex⟩ := by
      rw [linkByName_linkAddVrf, hf]
      rfl
    have hred : getOrCreateVrf ls name tableID =
        (linkSetUp (linkAddVrf ls name tableID) name,
          some ⟨name, true, tableID, false, ls.nextIndex⟩) := by
      unfold getOrCreateVrf
      rw [hf]
      simp [hfind]
    rw [hred] at h
    injection h with h1 h2
    subst h1
    refine ⟨⟨name, true, tableID, true, ls.nextIndex⟩, ?_⟩
    simp [getOrCreateVrf, linkByName_linkSetUp, hfind]

end Exporter

namespace Exporter

theorem reconcileRoutes_eq (idx T P : Nat) (addSet delSet : PrefixSet) (st st₁ st₂ : Kernel)
    (w₁ w₂ : Nat)
    (hadds : applyAdds idx T P addSet.prefixes st 0 = (st₁, w₁, false))
    (hdels : applyDels idx T P delSet.prefixes st₁ w₁ = (st₂, w₂, false)) :
    reconcileRoutes idx T P addSet delSet st = (st₂, w₂, false) := by
  unfold reconcileRoutes
  rw [hadds]
  show applyDels idx T P delSet.prefixes st₁ w₁ = _
  exact hdels

theorem reconcileKernelRoutes_eq (vrfName : String) (T P : Nat)
    (addSet delSet : PrefixSet) (ls : LinkState) (st : Kernel)
    (ls₁ : LinkState) (vrf : Link) (res : Kernel × Nat × Bool)
    (hvrf : getOrCreateVrf ls vrfName T = (ls₁, some vrf))
    (hroutes : reconcileRoutes vrf.index T P addSet delSet st = res) :
    reconcileKernelRoutes vrfName T P addSet delSet ls st =
      ⟨ls₁, res.1, res.2.1, res.2.2⟩ := by
  unfold reconcileKernelRoutes
  rw [hvrf]
  show (match reconcileRoutes vrf.index T P addSet delSet st with
    | (st', w, e) => SyncResult.mk ls₁ st' w e) = _
  rw [hroutes]

theorem podCIDRPass_eq (vrfName : String) (T P : Nat) (afs : List Nat)
    (D : PrefixSet) (ls : LinkState) (st : Kernel) :
    podCIDRPass vrfName T P afs D ls st =
      reconcileKernelRoutes vrfName T P
        (D.distance (getKernelRoutes st T P afs)).1
        (D.distance (getKernelRoutes st T P afs)).2 ls st := rfl

end Exporter

namespace Exporter

/-- **C4 (amended).** The pod-CIDR reconcile pass is idempotent — and a
second pass with identical input issues zero route writes — provided
the desired set is canonical (every element parses and is the exact
rendering of its parsed network, i.e. already-masked IPv4 CIDR text)
and the touched kernel partition is well formed (its routes carry a
listed family and round-tripping destinations).  Without the
canonicality proviso the property fails (see the counterexample): the
kernel lists back masked canonical strings, which then differ textually
from the desired input. -/
theorem reconcile_idempotent_on_canonical
    (vrfName : String) (T P : Nat) (afs : List Nat) (D : PrefixSet)
    (ls : LinkState) (st : Kernel)
    (hAF : AF_INET ∈ afs)
    (hD : ∀ p ∈ D.prefixes, ∃ n, parseCIDR p = some n ∧ renderIPNet n = p)
    (hst : ∀ r ∈ st, r.table = T → r.protocol = P → ∀ n, r.dst = some n →
      r.family = AF_INET ∧ parseCIDR (renderIPNet n) = some n) :
    (podCIDRPass vrfName T P afs D ls st).errored = false ∧
    podCIDRPass vrfName T P afs D
        (podCIDRPass vrfName T P afs D ls st).links
        (podCIDRPass vrfName T P afs D ls st).kernel =
      ⟨(podCIDRPass vrfName T P afs D ls st).links,
       (podCIDRPass vrfName T P afs D ls st).kernel, 0, false⟩ := by
  obtain ⟨ls₁, vrf, hvrf⟩ := getOrCreateVrf_succeeds ls vrfName T
  have hdiff := distance_is_set_difference D (getKernelRoutes st T P afs)
  -- every element of the add set parses
  have haddD : ∀ p ∈ (D.distance (getKernelRoutes st T P afs)).1.prefixes,
      p ∈ D.prefixes ∧ p ∉ (getKernelRoutes st T P afs).prefixes :=
    fun p hp => (hdiff p).1.mp hp
  have haddp : ∀ p ∈ (D.distance (getKernelRoutes st T P afs)).1.prefixes,
      ∃ n, parseCIDR p = some n := by
    intro p hp
    obtain ⟨n, hn, -⟩ := hD p (haddD p hp).1
    exact ⟨n, hn⟩
  obtain ⟨st₁, hrunAdd, hmemAdd⟩ :=
    applyAdds_spec vrf.index T P (D.distance (getKernelRoutes st T P afs)).1.prefixes st 0 haddp
  -- every element of the delete set parses, renders back, and its route is in st₁
  have hdelD : ∀ p ∈ (D.distance (getKernelRoutes st T P afs)).2.prefixes,
      p ∈ (getKernelRoutes st T P afs).prefixes ∧ p ∉ D.prefixes :=
    fun p hp => (hdiff p).2.mp hp
  have hdelp : ∀ p ∈ (D.distance (getKernelRoutes st T P afs)).2.prefixes,
      ∃ n, parseCIDR p = some n ∧ renderIPNet n = p ∧
        ∃ r ∈ st₁, kmatch r ⟨vrf.index, some n, T, P, AF_INET⟩ := by
    intro p hp
    obtain ⟨hpcur, hpnD⟩ := hdelD p hp
    obtain ⟨af, hafm, r, hrst, hfam, htab, hproto, n, hdst, hpren⟩ :=
      (mem_getKernelRoutes st T P afs p).mp hpcur
    obtain ⟨hfam2, hRT⟩ := hst r hrst htab hproto n hdst
    have hparsep : parseCIDR p = some n := by
      rw [hpren]
      exact hRT
    refine ⟨n, hparsep, hpren.symm, r, ?_, ?_⟩
    · refine (hmemAdd r).mpr (Or.inl ⟨hrst, ?_⟩)
      intro q hq m hm hk
      rw [kmatch_mk] at hk
      have hmn : m = n := Option.some.inj (hk.2.2.symm.trans hdst)
      obtain ⟨nq, hnq, hrenq⟩ := hD q (haddD q hq).1
      rw [hm] at hnq
      injection hnq with hnq'
      rw [← hnq', hmn] at hrenq
      rw [hpren, hrenq] at hpcur
      exact (haddD q hq).2 hpcur
    · rw [kmatch_mk]
      exact ⟨htab, hproto, hdst⟩
  obtain ⟨st₂, hrunDel, hmemDel⟩ :=
    applyDels_spec vrf.index T P (D.distance (getKernelRoutes st T P afs)).2.prefixes st₁
      (0 + (D.distance (getKernelRoutes st T P afs)).1.prefixes.length) hdelp
      (distance_deleteSet_nodup D (getKernelRoutes st T P afs))
  have hpass1 : podCIDRPass vrfName T P afs D ls st =
      ⟨ls₁, st₂,
        0 + (D.distance (getKernelRoutes st T P afs)).1.prefixes.length +
          (D.distance (getKernelRoutes st T P afs)).2.prefixes.length, false⟩ := by
    rw [podCIDRPass_eq]
    exact reconcileKernelRoutes_eq vrfName T P _ _ ls st ls₁ vrf _ hvrf
      (reconcileRoutes_eq vrf.index T P _ _ st st₁ st₂ _ _ hrunAdd hrunDel)
  -- the second listing sees exactly the desired set
  have hcur2 : ∀ q, q ∈ (getKernelRoutes st₂ T P afs).prefixes ↔ q ∈ D.prefixes := by
    intro q
    constructor
    · intro hq
      obtain ⟨af, hafm, r, hrst₂, hfam, htab, hproto, n, hdst, hqren⟩ :=
        (mem_getKernelRoutes st₂ T P afs q).mp hq
      obtain ⟨hrst₁, hnodelm⟩ := (hmemDel r).mp hrst₂
      rcases (hmemAdd r).mp hrst₁ with ⟨hrst, hnoaddm⟩ | ⟨p, hpadd, m, hpm, hrm⟩
      · obtain ⟨hfam2, hRT⟩ := hst r hrst htab hproto n hdst
        by_contra hqnD
        have hqcur : q ∈ (getKernelRoutes st T P afs).prefixes :=
          (mem_getKernelRoutes st T P afs q).mpr
            ⟨AF_INET, hAF, r, hrst, hfam2, htab, hproto, n, hdst, hqren⟩
        have hqdel : q ∈ (D.distance (getKernelRoutes st T P afs)).2.prefixes :=
          (hdiff q).2.mpr ⟨hqcur, hqnD⟩
        have hparseq : parseCIDR q = some n := by
          rw [hqren]
          exact hRT
        exact hnodelm q hqdel n hparseq ((kmatch_mk _ _ _ _ _ _).mpr ⟨htab, hproto, hdst⟩)
      · have hdstm : r.dst = some m := by
          rw [hrm]
        rw [hdstm] at hdst
        injection hdst with hnm
        obtain ⟨np, hnp, hrenp⟩ := hD p (haddD p hpadd).1
        rw [hpm] at hnp
        injection hnp with hnp'
        rw [← hnp'] at hrenp
        rw [← hnm] at hqren
        rw [hqren, hrenp]
        exact (haddD p hpadd).1
    · intro hqD
      obtain ⟨nq, hpq, hrq⟩ := hD q hqD
      by_cases hqcur : q ∈ (getKernelRoutes st T P afs).prefixes
      · obtain ⟨af, hafm, r, hrst, hfam, htab, hproto, n, hdst, hqren⟩ :=
          (mem_getKernelRoutes st T P afs q).mp hqcur
        obtain ⟨hfam2, hRT⟩ := hst r hrst htab hproto n hdst
        have hrst₁ : r ∈ st₁ := by
          refine (hmemAdd r).mpr (Or.inl ⟨hrst, ?_⟩)
          intro p hp m hm hk
          rw [kmatch_mk] at hk
          have hmn : m = n := Option.some.inj (hk.2.2.symm.trans hdst)
          obtain ⟨np, hnp, hrenp⟩ := hD p (haddD p hp).1
          rw [hm] at hnp
          injection hnp with hnp'
          rw [← hnp', hmn] at hrenp
          rw [hqren, hrenp] at hqcur
          exact (haddD p hp).2 hqcur
        have hrst₂ : r ∈ st₂ := by
          refine (hmemDel r).mpr ⟨hrst₁, ?_⟩
          intro p hp m hm hk
          rw [kmatch_mk] at hk
          have hmn : m = n := Option.some.inj (hk.2.2.symm.trans hdst)
          obtain ⟨np, hnp', hrenp, -⟩ := hdelp p hp
          rw [hm] at hnp'
          injection hnp' with hnp''
          rw [← hnp'', hmn] at hrenp
          rw [hqren, hrenp] at hqD
          exact (hdelD p hp).2 hqD
        exact (mem_getKernelRoutes st₂ T P afs q).mpr
          ⟨AF_INET, hAF, r, hrst₂, hfam2, htab, hproto, n, hdst, hqren⟩
      · have hqadd : q ∈ (D.distance (getKernelRoutes st T P afs)).1.prefixes :=
          (hdiff q).1.mpr ⟨hqD, hqcur⟩
        have hin₁ : (⟨vrf.index, some nq, T, P, AF_INET⟩ : KRoute) ∈ st₁ :=
          (hmemAdd _).mpr (Or.inr ⟨q, hqadd, nq, hpq, rfl⟩)
        have hin₂ : (⟨vrf.index, some nq, T, P, AF_INET⟩ : KRoute) ∈ st₂ := by
          refine (hmemDel _).mpr ⟨hin₁, ?_⟩
          intro p hp m hm hk
          rw [kmatch_mk] at hk
          have hmn : m = nq := (Option.some.inj hk.2.2).symm
          obtain ⟨np, hnp', hrenp, -⟩ := hdelp p hp
          rw [hm] at hnp'
          injection hnp' with hnp''
          rw [← hnp'', hmn] at hrenp
          rw [← hrq, hrenp] at hqD
          exact (hdelD p hp).2 hqD
        exact (mem_getKernelRoutes st₂ T P afs q).mpr
          ⟨AF_INET, hAF, _, hin₂, rfl, rfl, rfl, nq, rfl, hrq.symm⟩
  -- the second diff is empty
  have hdiff2 := distance_is_set_difference D (getKernelRoutes st₂ T P afs)
  have hadd2 : (D.distance (getKernelRoutes st₂ T P afs)).1.prefixes = [] := by
    rw [List.eq_nil_iff_forall_not_mem]
    intro q hq
    obtain ⟨hqD, hqn⟩ := (hdiff2 q).1.mp hq
    exact hqn ((hcur2 q).mpr hqD)
  have hdel2 : (D.distance (getKernelRoutes st₂ T P afs)).2.prefixes = [] := by
    rw [List.eq_nil_iff_forall_not_mem]
    intro q hq
    obtain ⟨hqc, hqnD⟩ := (hdiff2 q).2.mp hq
    exact hqnD ((hcur2 q).mp hqc)
  -- second pass is a no-op
  obtain ⟨vrf', hvrf'⟩ := getOrCreateVrf_stable ls vrfName T ls₁ vrf hvrf
  have hadds2 : applyAdds vrf'.index T P
      (D.distance (getKernelRoutes st₂ T P afs)).1.prefixes st₂ 0 = (st₂, 0, false) := by
    rw [hadd2]
    rfl
  have hdels2 : applyDels vrf'.index T P
      (D.distance (getKernelRoutes st₂ T P afs)).2.prefixes st₂ 0 = (st₂, 0, false) := by
    rw [hdel2]
    rfl
  have hpass2 : podCIDRPass vrfName T P afs D ls₁ st₂ = ⟨ls₁, st₂, 0, false⟩ := by
    rw [podCIDRPass_eq]
    exact reconcileKernelRoutes_eq vrfName T P _ _ ls₁ st₂ ls₁ vrf' _ hvrf'
      (reconcileRoutes_eq vrf'.index T P _ _ st₂ st₂ st₂ 0 0 hadds2 hdels2)
  rw [hpass1]
  exact ⟨rfl, hpass2⟩

end Exporter

namespace Exporter

/-- Witness for the amended C4: the canonical desired set
`{"10.0.0.0/24"}` over an empty kernel — the first pass succeeds and
the second pass is a no-op with zero writes. -/
theorem reconcile_idempotent_on_canonical_witness :
    (podCIDRPass "cilium-vrf" 100 4 [AF_INET] ⟨["10.0.0.0/24"]⟩ ⟨[], 1⟩ []).errored = false ∧
    podCIDRPass "cilium-vrf" 100 4 [AF_INET] ⟨["10.0.0.0/24"]⟩
        (podCIDRPass "cilium-vrf" 100 4 [AF_INET] ⟨["10.0.0.0/24"]⟩ ⟨[], 1⟩ []).links
        (podCIDRPass "cilium-vrf" 100 4 [AF_INET] ⟨["10.0.0.0/24"]⟩ ⟨[], 1⟩ []).kernel =
      ⟨(podCIDRPass "cilium-vrf" 100 4 [AF_INET] ⟨["10.0.0.0/24"]⟩ ⟨[], 1⟩ []).links,
       (podCIDRPass "cilium-vrf" 100 4 [AF_INET] ⟨["10.0.0.0/24"]⟩ ⟨[], 1⟩ []).kernel,
       0, false⟩ :=
  reconcile_idempotent_on_canonical "cilium-vrf" 100 4 [AF_INET] ⟨["10.0.0.0/24"]⟩ ⟨[], 1⟩ []
    (by decide)
    (by
      intro p hp
      rw [show (⟨["10.0.0.0/24"]⟩ : PrefixSet).prefixes = ["10.0.0.0/24"] from rfl,
        List.mem_singleton] at hp
      subst hp
      exact ⟨⟨167772160, 24⟩, by decide, by decide⟩)
    (fun r hr => absurd hr (List.not_mem_nil r))

end Exporter
